import Mathlib

/-!
# Verification of the parallel.js worker-pool scheduler

Shallow embedding of the core of the parallel.js repository:

* `Queue` — the two-stack FIFO queue (src/datastructures/Queue.ts);
* the transferable extractor (src/utils/extractTransferables.ts) over an
  inductive model of JS values, with object identity modelled by numeric ids;
* the `ThreadPool` scheduler (src/primitives/ThreadPool.ts) as a state
  machine whose events are task admission, TTL timer firing, worker
  responses, worker crashes and pool termination;
* the single-task `ExecutableThread` wrapper
  (src/primitives/Thread/ExecutableThread.ts) as a small state machine;
* `map` (ThreadPool.map) via a model of JS Promise.all over per-item
  outcomes, with an explicit completion-order schedule.

Convention: a JS array used as a stack (push/pop at the end) is modelled as
a Lean list whose head is the push/pop end.  JS promises settle at most
once: calling resolve/reject on an already settled promise is a no-op, which
the embedding encodes in `PromiseState.resolveOnce` / `rejectOnce`.
-/

namespace Parallel

/-! ## The two-stack queue (src/datastructures/Queue.ts) -/

structure Queue (α : Type) where
  inStack : List α
  outStack : List α
deriving DecidableEq, Repr

namespace Queue

variable {α : Type}

def empty : Queue α := ⟨[], []⟩

/-- The transfer loop in dequeue/peek:
while (inStack.length > 0) outStack.push(inStack.pop()). -/
def moveAll : List α → List α → List α
  | [], out => out
  | x :: xs, out => moveAll xs (x :: out)

/-- enqueue(item): inStack.push(item). -/
def enqueue (q : Queue α) (x : α) : Queue α := { q with inStack := x :: q.inStack }

/-- dequeue(): transfer when outStack is empty, then pop outStack
(returning the empty sentinel, never throwing). -/
def dequeue (q : Queue α) : Option α × Queue α :=
  let q1 : Queue α := if q.outStack.isEmpty then ⟨[], moveAll q.inStack q.outStack⟩ else q
  match q1.outStack with
  | [] => (none, q1)
  | x :: rest => (some x, ⟨q1.inStack, rest⟩)

/-- size(): inStack.length + outStack.length. -/
def size (q : Queue α) : Nat := q.inStack.length + q.outStack.length

/-- isEmpty(): both stacks empty. -/
def isEmpty (q : Queue α) : Bool := q.inStack.isEmpty && q.outStack.isEmpty

/-- peek(): like dequeue but without removing. -/
def peek (q : Queue α) : Option α :=
  let q1 : Queue α := if q.outStack.isEmpty then ⟨[], moveAll q.inStack q.outStack⟩ else q
  q1.outStack.head?

/-- clear(): reset both stacks. -/
def clear (_ : Queue α) : Queue α := ⟨[], []⟩

/-- Logical front-to-back contents of the queue. -/
def toList (q : Queue α) : List α := q.outStack ++ q.inStack.reverse

theorem moveAll_eq (l out : List α) : moveAll l out = l.reverse ++ out := by
  induction l generalizing out with
  | nil => simp [moveAll]
  | cons x xs ih => simp [moveAll, ih]

theorem toList_empty : (empty : Queue α).toList = [] := rfl

theorem toList_enqueue (q : Queue α) (x : α) :
    (q.enqueue x).toList = q.toList ++ [x] := by
  simp [enqueue, toList]

theorem size_eq_length_toList (q : Queue α) : q.size = q.toList.length := by
  simp [size, toList, Nat.add_comm]

theorem isEmpty_iff (q : Queue α) : q.isEmpty = true ↔ q.toList = [] := by
  cases q with
  | mk inS outS =>
    simp [isEmpty, toList, List.isEmpty_iff, and_comm]

theorem dequeue_fst (q : Queue α) : (q.dequeue).1 = q.toList.head? := by
  cases q with
  | mk inS outS =>
    cases outS with
    | nil =>
      simp only [dequeue, toList, List.isEmpty_nil, if_pos, moveAll_eq]
      cases h : inS.reverse with
      | nil => simp [h]
      | cons x rest => simp [h]
    | cons o os => simp [dequeue, toList]

theorem dequeue_snd_toList (q : Queue α) : (q.dequeue).2.toList = q.toList.tail := by
  cases q with
  | mk inS outS =>
    cases outS with
    | nil =>
      simp only [dequeue, toList, List.isEmpty_nil, if_pos, moveAll_eq]
      cases h : inS.reverse with
      | nil => simp [h, toList]
      | cons x rest => simp [h, toList]
    | cons o os => simp [dequeue, toList]

theorem dequeue_empty : (empty : Queue α).dequeue = (none, empty) := rfl

/-- Repeated dequeue, with fuel. -/
def drainAux : Nat → Queue α → List α
  | 0, _ => []
  | n + 1, q =>
    match q.dequeue with
    | (none, _) => []
    | (some x, q2) => x :: drainAux n q2

/-- Dequeue until empty: size-many successive dequeue() calls. -/
def drain (q : Queue α) : List α := drainAux q.size q

theorem drainAux_eq (n : Nat) (q : Queue α) (h : q.toList.length ≤ n) :
    drainAux n q = q.toList := by
  induction n generalizing q with
  | zero =>
    have : q.toList = [] := List.length_eq_zero.mp (Nat.le_zero.mp h)
    simp [drainAux, this]
  | succ n ih =>
    have hf := dequeue_fst q
    have hs := dequeue_snd_toList q
    rcases hd : q.dequeue with ⟨o, q2⟩
    rw [hd] at hf hs
    cases htl : q.toList with
    | nil =>
      simp [htl] at hf
      simp only [drainAux, hd, hf]
    | cons x rest =>
      simp [htl] at hf hs
      subst hf
      simp only [drainAux, hd]
      have hlen : q2.toList.length ≤ n := by
        rw [hs]
        have := htl ▸ h
        simpa using Nat.le_of_succ_le_succ this
      rw [ih q2 hlen, hs]

theorem drain_eq_toList (q : Queue α) : q.drain = q.toList := by
  rw [drain, drainAux_eq]
  rw [size_eq_length_toList]

theorem toList_foldl_enqueue (vs : List α) (q : Queue α) :
    (vs.foldl enqueue q).toList = q.toList ++ vs := by
  induction vs generalizing q with
  | nil => simp
  | cons v vt ih => simp [List.foldl_cons, ih, toList_enqueue]

end Queue

/-- C5: for any sequence enqueue(v1), …, enqueue(vn) into a fresh queue with
no interleaved dequeue, the successive dequeue() calls return v1, …, vn in
exactly that order (the reverse-transfer of the incoming stack preserves
FIFO order), and dequeue() on an empty queue returns the empty sentinel
(none) rather than throwing. -/
theorem C5_queue_fifo {α : Type} :
    (∀ vs : List α, (vs.foldl Queue.enqueue Queue.empty).drain = vs)
    ∧ (Queue.empty : Queue α).dequeue = (none, Queue.empty) := by
  constructor
  · intro vs
    rw [Queue.drain_eq_toList, Queue.toList_foldl_enqueue, Queue.toList_empty]
    simp
  · exact Queue.dequeue_empty

/-! ## Transferable extraction (src/utils/extractTransferables.ts)

JS object identity is modelled by numeric ids: two occurrences of the same
id denote the same runtime object (the same buffer reachable through two
paths), distinct objects carry distinct ids. -/

/-- An underlying binary buffer: an exclusive ArrayBuffer or a
SharedArrayBuffer, identified by object id. -/
inductive Buffer : Type where
  | ab (id : Nat)
  | sab (id : Nat)
deriving DecidableEq, Repr

/-- A JS value, as traversed by extractTransferables: falsy or truthy
non-object scalars, MessagePorts, buffers, typed-array views over a buffer,
arrays and plain objects (their Object.values). -/
inductive Value : Type where
  | scalar (truthy : Bool)
  | port (id : Nat)
  | buf (b : Buffer)
  | view (b : Buffer)
  | arr (elems : List Value)
  | obj (fields : List Value)
deriving Repr

/-- What the transferables set can hold: the code only ever adds
MessagePorts and ArrayBuffers, but the type also admits SharedArrayBuffers
so that their exclusion is a theorem, not a typing artifact. -/
inductive Transferable : Type where
  | port (id : Nat)
  | abuf (id : Nat)
  | sabuf (id : Nat)
deriving DecidableEq, Repr

/-- JS truthiness as tested by the `if (!obj) return` guard: objects,
arrays, buffers, views and ports are always truthy; a scalar carries its
own truthiness (null, undefined, 0, NaN, false, empty string are falsy). -/
def falsy : Value → Bool
  | .scalar t => !t
  | _ => false

/-- Set.add with JS Set semantics: no-op on a present element, insertion
order preserved otherwise (Array.from returns insertion order). -/
def setAdd (acc : List Transferable) (x : Transferable) : List Transferable :=
  if x ∈ acc then acc else acc ++ [x]

mutual
/-- The recursive `extract` closure, threading the accumulated set.
Mirrors the source branch by branch: falsy guard; MessagePort;
ArrayBuffer excluding SharedArrayBuffer (a SharedArrayBuffer is not
instanceof ArrayBuffer, falls through every branch to Object.values, which
is empty for it — net effect: nothing added); ArrayBuffer.isView adds the
underlying buffer when it is a non-shared ArrayBuffer; arrays and plain
objects recurse over their elements/values; remaining scalars are no-ops. -/
def extract : Value → List Transferable → List Transferable
  | v, acc =>
    if falsy v then acc
    else
      match v with
      | .port i => setAdd acc (.port i)
      | .buf (.ab i) => setAdd acc (.abuf i)
      | .buf (.sab _) => acc
      | .view (.ab i) => setAdd acc (.abuf i)
      | .view (.sab _) => acc
      | .arr l => extractList l acc
      | .obj l => extractList l acc
      | .scalar _ => acc

/-- obj.forEach(extract) / for (const o of Object.values(obj)) extract(o). -/
def extractList : List Value → List Transferable → List Transferable
  | [], acc => acc
  | v :: vs, acc => extractList vs (extract v acc)
end

/-- extractTransferables(args): run extract over the argument value with an
empty set and return the collected transferables in insertion order. -/
def extractTransferables (v : Value) : List Transferable := extract v []

mutual
theorem extract_nodup (v : Value) (acc : List Transferable) (h : acc.Nodup) :
    (extract v acc).Nodup := by
  have hadd : ∀ x, (setAdd acc x).Nodup := by
    intro x
    unfold setAdd
    split
    · exact h
    · next hx => exact List.Nodup.append h (List.nodup_singleton x) (by simpa using hx)
  match v with
  | .scalar t => cases t <;> simpa [extract.eq_def, falsy] using h
  | .port i => simpa [extract.eq_def, falsy] using hadd _
  | .buf (.ab i) => simpa [extract.eq_def, falsy] using hadd _
  | .buf (.sab i) => simpa [extract.eq_def, falsy] using h
  | .view (.ab i) => simpa [extract.eq_def, falsy] using hadd _
  | .view (.sab i) => simpa [extract.eq_def, falsy] using h
  | .arr l => simpa [extract.eq_def, falsy] using extractList_nodup l acc h
  | .obj l => simpa [extract.eq_def, falsy] using extractList_nodup l acc h

theorem extractList_nodup (l : List Value) (acc : List Transferable)
    (h : acc.Nodup) : (extractList l acc).Nodup := by
  match l with
  | [] => rw [extractList]; exact h
  | v :: vs => rw [extractList]; exact extractList_nodup vs _ (extract_nodup v acc h)
end

mutual
/-- The transferables reachable in a value according to the specification
of the Transferable Extractor, used as the spec-side comparator: a typed
numeric view contributes its underlying buffer, not itself; a raw binary
buffer contributes itself; a shared-memory buffer and anything built on
top of it is excluded; null/undefined and non-object/non-buffer scalars
are no-ops; recurse through arrays and plain objects.  The specification
sentence does not cover MessagePorts, so they contribute nothing here and
the comparison theorem is stated for port-free values. -/
def specTransfers : Value → List Transferable
  | .scalar _ => []
  | .port _ => []
  | .buf (.ab i) => [.abuf i]
  | .buf (.sab _) => []
  | .view (.ab i) => [.abuf i]
  | .view (.sab _) => []
  | .arr l => specTransfersList l
  | .obj l => specTransfersList l

def specTransfersList : List Value → List Transferable
  | [] => []
  | v :: vs => specTransfers v ++ specTransfersList vs
end

mutual
/-- The MessagePorts reachable in a value (truthy traversal positions). -/
def portsOf : Value → List Transferable
  | .scalar _ => []
  | .port i => [.port i]
  | .buf _ => []
  | .view _ => []
  | .arr l => portsOfList l
  | .obj l => portsOfList l

def portsOfList : List Value → List Transferable
  | [] => []
  | v :: vs => portsOf v ++ portsOfList vs
end

theorem mem_setAdd (acc : List Transferable) (x y : Transferable) :
    y ∈ setAdd acc x ↔ y ∈ acc ∨ y = x := by
  unfold setAdd
  split
  · next hx =>
    constructor
    · exact fun h => Or.inl h
    · rintro (h | rfl)
      · exact h
      · exact hx
  · simp

mutual
theorem mem_extract (v : Value) (acc : List Transferable) (x : Transferable) :
    x ∈ extract v acc ↔ x ∈ acc ∨ x ∈ specTransfers v ∨ x ∈ portsOf v := by
  match v with
  | .scalar t => cases t <;> simp [extract.eq_def, falsy, specTransfers, portsOf]
  | .port i => simp [extract.eq_def, falsy, mem_setAdd, specTransfers, portsOf]
  | .buf (.ab i) => simp [extract.eq_def, falsy, mem_setAdd, specTransfers, portsOf]
  | .buf (.sab i) => simp [extract.eq_def, falsy, specTransfers, portsOf]
  | .view (.ab i) => simp [extract.eq_def, falsy, mem_setAdd, specTransfers, portsOf]
  | .view (.sab i) => simp [extract.eq_def, falsy, specTransfers, portsOf]
  | .arr l =>
    rw [specTransfers, portsOf]
    simpa [extract.eq_def, falsy] using mem_extractList l acc x
  | .obj l =>
    rw [specTransfers, portsOf]
    simpa [extract.eq_def, falsy] using mem_extractList l acc x

theorem mem_extractList (l : List Value) (acc : List Transferable)
    (x : Transferable) :
    x ∈ extractList l acc ↔
      x ∈ acc ∨ x ∈ specTransfersList l ∨ x ∈ portsOfList l := by
  match l with
  | [] => rw [extractList]; simp [specTransfersList, portsOfList]
  | v :: vs =>
    rw [extractList, specTransfersList, portsOfList]
    rw [mem_extractList vs _ x, mem_extract v acc x]
    simp only [List.mem_append]
    tauto
end

mutual
theorem specTransfers_no_sab (v : Value) (i : Nat) :
    Transferable.sabuf i ∉ specTransfers v := by
  match v with
  | .scalar t => simp [specTransfers]
  | .port j => simp [specTransfers]
  | .buf (.ab j) => simp [specTransfers]
  | .buf (.sab j) => simp [specTransfers]
  | .view (.ab j) => simp [specTransfers]
  | .view (.sab j) => simp [specTransfers]
  | .arr l => rw [specTransfers]; exact specTransfersList_no_sab l i
  | .obj l => rw [specTransfers]; exact specTransfersList_no_sab l i

theorem specTransfersList_no_sab (l : List Value) (i : Nat) :
    Transferable.sabuf i ∉ specTransfersList l := by
  match l with
  | [] => simp [specTransfersList]
  | v :: vs =>
    rw [specTransfersList]
    simp only [List.mem_append, not_or]
    exact ⟨specTransfers_no_sab v i, specTransfersList_no_sab vs i⟩
end

mutual
theorem portsOf_only_ports (v : Value) (x : Transferable)
    (h : x ∈ portsOf v) : ∃ i, x = .port i := by
  match v with
  | .scalar t => simp [portsOf] at h
  | .port j => rw [portsOf] at h; simp at h; exact ⟨j, h⟩
  | .buf b => simp [portsOf] at h
  | .view b => simp [portsOf] at h
  | .arr l => rw [portsOf] at h; exact portsOfList_only_ports l x h
  | .obj l => rw [portsOf] at h; exact portsOfList_only_ports l x h

theorem portsOfList_only_ports (l : List Value) (x : Transferable)
    (h : x ∈ portsOfList l) : ∃ i, x = .port i := by
  match l with
  | [] => simp [portsOfList] at h
  | v :: vs =>
    rw [portsOfList] at h
    rcases List.mem_append.mp h with h1 | h2
    · exact portsOf_only_ports v x h1
    · exact portsOfList_only_ports vs x h2
end

mutual
theorem specTransfers_only_abuf (v : Value) (x : Transferable)
    (h : x ∈ specTransfers v) : ∃ i, x = .abuf i := by
  match v with
  | .scalar t => simp [specTransfers] at h
  | .port j => simp [specTransfers] at h
  | .buf (.ab j) => rw [specTransfers] at h; simp at h; exact ⟨j, h⟩
  | .buf (.sab j) => simp [specTransfers] at h
  | .view (.ab j) => rw [specTransfers] at h; simp at h; exact ⟨j, h⟩
  | .view (.sab j) => simp [specTransfers] at h
  | .arr l => rw [specTransfers] at h; exact specTransfersList_only_abuf l x h
  | .obj l => rw [specTransfers] at h; exact specTransfersList_only_abuf l x h

theorem specTransfersList_only_abuf (l : List Value) (x : Transferable)
    (h : x ∈ specTransfersList l) : ∃ i, x = .abuf i := by
  match l with
  | [] => simp [specTransfersList] at h
  | v :: vs =>
    rw [specTransfersList] at h
    rcases List.mem_append.mp h with h1 | h2
    · exact specTransfers_only_abuf v x h1
    · exact specTransfersList_only_abuf vs x h2
end

/-- A value with no MessagePort anywhere in it. -/
def portFree (v : Value) : Prop := portsOf v = []

instance (v : Value) : Decidable (portFree v) := by
  unfold portFree
  infer_instance

/-- C7: extractTransferables returns each eligible buffer exactly once
(set semantics): the output list of every call is duplicate-free, and on
the two concrete sharing shapes — the same ArrayBuffer reachable both
directly and nested in an object, and two typed views over one underlying
buffer — that buffer appears exactly once. -/
theorem C7_transferable_dedup :
    (∀ v : Value, (extractTransferables v).Nodup)
    ∧ extractTransferables (.arr [.buf (.ab 0), .obj [.buf (.ab 0)]])
        = [.abuf 0]
    ∧ extractTransferables (.arr [.view (.ab 3), .view (.ab 3)])
        = [.abuf 3] := by
  refine ⟨fun v => extract_nodup v [] List.nodup_nil, ?_, ?_⟩ <;> rfl

/-- C8: the extractor classifies values exactly as specified, recursing
through arrays and plain objects: on port-free values, membership in the
output coincides with the spec-side classification `specTransfers` (a
typed view contributes its underlying buffer and never itself, a raw
ArrayBuffer contributes itself, shared buffers and views over them
contribute nothing, null/undefined and scalars contribute nothing); and
unconditionally, no SharedArrayBuffer ever appears in the output, and
every output element is an ArrayBuffer or a MessagePort. -/
theorem C8_transferable_classification :
    (∀ v : Value, portFree v →
      ∀ x, x ∈ extractTransferables v ↔ x ∈ specTransfers v)
    ∧ (∀ (v : Value) (i : Nat), Transferable.sabuf i ∉ extractTransferables v)
    ∧ (∀ (v : Value) (x : Transferable), x ∈ extractTransferables v →
        (∃ i, x = .abuf i) ∨ (∃ i, x = .port i)) := by
  refine ⟨?_, ?_, ?_⟩
  · intro v hpf x
    have hp : portsOf v = [] := hpf
    rw [extractTransferables, mem_extract, hp]
    simp
  · intro v i h
    rw [extractTransferables, mem_extract] at h
    rcases h with h | h | h
    · simp at h
    · exact specTransfers_no_sab v i h
    · rcases portsOf_only_ports v _ h with ⟨j, hj⟩
      exact Transferable.noConfusion hj
  · intro v x h
    rw [extractTransferables, mem_extract] at h
    rcases h with h | h | h
    · simp at h
    · exact Or.inl (specTransfers_only_abuf v x h)
    · exact Or.inr (portsOf_only_ports v x h)

theorem C8_transferable_classification_witness :
    portFree (.arr [.buf (.ab 0), .view (.ab 0), .buf (.sab 1), .view (.sab 1),
        .scalar true, .obj [.view (.ab 2)]])
    ∧ (Transferable.abuf 2
        ∈ extractTransferables (.arr [.buf (.ab 0), .view (.ab 0), .buf (.sab 1),
            .view (.sab 1), .scalar true, .obj [.view (.ab 2)]])
      ↔ Transferable.abuf 2
        ∈ specTransfers (.arr [.buf (.ab 0), .view (.ab 0), .buf (.sab 1),
            .view (.sab 1), .scalar true, .obj [.view (.ab 2)]])) :=
  ⟨by decide,
   C8_transferable_classification.1
     (.arr [.buf (.ab 0), .view (.ab 0), .buf (.sab 1), .view (.sab 1),
        .scalar true, .obj [.view (.ab 2)]])
     (by decide) (Transferable.abuf 2)⟩

/-! ### Termination of the extractor (C10)

The source recursion has no visited-set and no cycle detection; on the
inductive (hence finite and acyclic) value model it terminates.  To exhibit
the termination bound explicitly, `extractFuel` is the same recursion with
a step budget, returning none on budget exhaustion, and the theorem shows
a budget of the value's node count always suffices. -/

mutual
/-- Number of nodes of a value tree. -/
def vsize : Value → Nat
  | .scalar _ => 1
  | .port _ => 1
  | .buf _ => 1
  | .view _ => 1
  | .arr l => vsizeList l + 1
  | .obj l => vsizeList l + 1

def vsizeList : List Value → Nat
  | [] => 0
  | v :: vs => vsize v + vsizeList vs + 1
end

mutual
/-- The extract recursion with an explicit fuel budget. -/
def extractFuel : Nat → Value → List Transferable → Option (List Transferable)
  | 0, _, _ => none
  | f + 1, v, acc =>
    if falsy v then some acc
    else
      match v with
      | .port i => some (setAdd acc (.port i))
      | .buf (.ab i) => some (setAdd acc (.abuf i))
      | .buf (.sab _) => some acc
      | .view (.ab i) => some (setAdd acc (.abuf i))
      | .view (.sab _) => some acc
      | .arr l => extractListFuel f l acc
      | .obj l => extractListFuel f l acc
      | .scalar _ => some acc

def extractListFuel : Nat → List Value → List Transferable → Option (List Transferable)
  | _, [], acc => some acc
  | 0, _ :: _, _ => none
  | f + 1, v :: vs, acc =>
    match extractFuel f v acc with
    | none => none
    | some acc2 => extractListFuel f vs acc2
end

theorem one_le_vsize (v : Value) : 1 ≤ vsize v := by
  cases v <;> simp [vsize]

mutual
theorem extractFuel_eq (f : Nat) (v : Value) (acc : List Transferable)
    (h : vsize v ≤ f) : extractFuel f v acc = some (extract v acc) := by
  match f, v with
  | 0, v => exact absurd (Nat.le_trans (one_le_vsize v) h) (by simp)
  | f + 1, .scalar t => cases t <;> simp [extractFuel, extract.eq_def, falsy]
  | f + 1, .port i => simp [extractFuel, extract.eq_def, falsy]
  | f + 1, .buf (.ab i) => simp [extractFuel, extract.eq_def, falsy]
  | f + 1, .buf (.sab i) => simp [extractFuel, extract.eq_def, falsy]
  | f + 1, .view (.ab i) => simp [extractFuel, extract.eq_def, falsy]
  | f + 1, .view (.sab i) => simp [extractFuel, extract.eq_def, falsy]
  | f + 1, .arr l =>
    have hl : vsizeList l ≤ f := by
      have : vsizeList l + 1 ≤ f + 1 := by simpa [vsize] using h
      omega
    simp only [extractFuel, extract.eq_def, falsy, if_neg]
    exact extractListFuel_eq f l acc hl
  | f + 1, .obj l =>
    have hl : vsizeList l ≤ f := by
      have : vsizeList l + 1 ≤ f + 1 := by simpa [vsize] using h
      omega
    simp only [extractFuel, extract.eq_def, falsy, if_neg]
    exact extractListFuel_eq f l acc hl

theorem extractListFuel_eq (f : Nat) (l : List Value) (acc : List Transferable)
    (h : vsizeList l ≤ f) : extractListFuel f l acc = some (extractList l acc) := by
  match f, l with
  | f, [] => simp [extractListFuel, extractList]
  | 0, v :: vs => exact absurd h (by simp [vsizeList])
  | f + 1, v :: vs =>
    have h1 : vsize v ≤ f := by simp [vsizeList] at h; omega
    have h2 : vsizeList vs ≤ f := by simp [vsizeList] at h; omega
    simp only [extractListFuel, extractFuel_eq f v acc h1, extractList]
    exact extractListFuel_eq f vs _ h2
end

/-- C10: the extractor is total on acyclic inputs.  The value model is an
inductive tree, so every representable argument graph is finite and
acyclic; on such an input, running the recursion (which has no cycle
detection) with a fuel budget of the input's node count never exhausts the
budget and returns the same finite list as the structurally recursive
extractor.  Cyclic object graphs are not representable in the embedding,
which is exactly the acyclicity precondition of the claim. -/
theorem C10_extract_total_on_acyclic :
    ∀ (v : Value) (f : Nat), vsize v ≤ f →
      extractFuel f v [] = some (extractTransferables v) := by
  intro v f h
  rw [extractTransferables]
  exact extractFuel_eq f v [] h

theorem C10_witness :
    vsize (.arr [.buf (.ab 0), .obj [.view (.sab 1), .scalar true]]) ≤ 9
    ∧ extractFuel 9 (.arr [.buf (.ab 0), .obj [.view (.sab 1), .scalar true]]) []
        = some (extractTransferables
            (.arr [.buf (.ab 0), .obj [.view (.sab 1), .scalar true]])) :=
  ⟨by decide,
   C10_extract_total_on_acyclic (.arr [.buf (.ab 0), .obj [.view (.sab 1), .scalar true]])
     9 (by decide)⟩

/-! ## Promises

JS promises settle at most once: resolve/reject on a settled promise is a
no-op.  `ρ` is the type of rejection reasons. -/

/-- The settlement state of a promise. -/
inductive PromiseState (ρ : Type) : Type where
  | pending
  | resolved (v : Nat)
  | rejected (r : ρ)
deriving DecidableEq, Repr

namespace PromiseState

/-- resolve(v): settles only a pending promise. -/
def resolveOnce {ρ : Type} (p : PromiseState ρ) (v : Nat) : PromiseState ρ :=
  match p with
  | .pending => .resolved v
  | _ => p

/-- reject(r): settles only a pending promise. -/
def rejectOnce {ρ : Type} (p : PromiseState ρ) (r : ρ) : PromiseState ρ :=
  match p with
  | .pending => .rejected r
  | _ => p

theorem resolveOnce_of_settled {ρ : Type} (p : PromiseState ρ) (v : Nat)
    (h : p ≠ .pending) : p.resolveOnce v = p := by
  cases p <;> simp [resolveOnce] at h ⊢

theorem rejectOnce_of_settled {ρ : Type} (p : PromiseState ρ) (r : ρ)
    (h : p ≠ .pending) : p.rejectOnce r = p := by
  cases p <;> simp [rejectOnce] at h ⊢

theorem resolveOnce_ne_pending {ρ : Type} (p : PromiseState ρ) (v : Nat) :
    p.resolveOnce v ≠ .pending := by
  cases p <;> simp [resolveOnce]

theorem rejectOnce_ne_pending {ρ : Type} (p : PromiseState ρ) (r : ρ) :
    p.rejectOnce r ≠ .pending := by
  cases p <;> simp [rejectOnce]

end PromiseState

/-! ## The single-task wrapper (src/primitives/Thread/ExecutableThread.ts)

The constructor posts the task to the worker (so the body is runnable from
that instant) and only then, when ttl > 0, arms the TTL timer whose handler
calls this.terminate() and rejects the promise.  The timer is cleared by
clearTTL() inside the message, error and exit handlers, i.e. on settlement. -/

/-- Rejection reasons of an ExecutableThread promise. -/
inductive ThreadReject : Type where
  | threadTtlExpired
  | taskErr (msg : Nat)
  | workerErr (e : Nat)
  | exitCode (c : Nat)
deriving DecidableEq, Repr

structure ThreadState : Type where
  started : Bool
  terminated : Bool
  ttlArmed : Bool
  promise : PromiseState ThreadReject
deriving DecidableEq, Repr

/-- The constructor: postMessage happens first (started), then the TTL
timer is armed iff ttl > 0. -/
def mkExecutableThread (ttl : Nat) : ThreadState :=
  { started := true
    terminated := false
    ttlArmed := decide (0 < ttl)
    promise := .pending }

/-- Events an ExecutableThread can observe. -/
inductive ThreadEvent : Type where
  | timer
  | success (v : Nat)
  | failure (msg : Nat)
  | errorEvt (e : Nat)
  | exit (code : Nat)
deriving DecidableEq, Repr

/-- One event of the ExecutableThread: the timer handler calls
this.terminate() and rejects with the TTL-expiry error (only an armed
timer can fire; a cleared one never does); the message handler clears the
TTL and resolves or rejects; the error and exit handlers clear the TTL and
reject (exit only for a non-zero code). -/
def threadStep (t : ThreadState) : ThreadEvent → ThreadState
  | .timer =>
    if t.ttlArmed then
      { t with terminated := true, ttlArmed := false,
               promise := t.promise.rejectOnce .threadTtlExpired }
    else t
  | .success v => { t with ttlArmed := false, promise := t.promise.resolveOnce v }
  | .failure m => { t with ttlArmed := false, promise := t.promise.rejectOnce (.taskErr m) }
  | .errorEvt e => { t with ttlArmed := false, promise := t.promise.rejectOnce (.workerErr e) }
  | .exit c =>
    { t with ttlArmed := false,
             promise := if c ≠ 0 then t.promise.rejectOnce (.exitCode c) else t.promise }

/-- States an ExecutableThread constructed with the given ttl can reach. -/
inductive ThreadReachable (ttl : Nat) : ThreadState → Prop where
  | init : ThreadReachable ttl (mkExecutableThread ttl)
  | step {t : ThreadState} (h : ThreadReachable ttl t) (e : ThreadEvent) :
      ThreadReachable ttl (threadStep t e)

theorem threadReachable_armed_pending {ttl : Nat} {t : ThreadState}
    (h : ThreadReachable ttl t) : t.ttlArmed = true → t.promise = .pending := by
  induction h with
  | init => intro _; rfl
  | @step u h e ih =>
    intro ha
    cases e with
    | timer =>
      by_cases harm : u.ttlArmed = true
      · simp [threadStep, harm] at ha
      · simp only [Bool.not_eq_true] at harm
        simp only [threadStep, harm, Bool.false_eq_true, if_false] at ha ⊢
    | success v => simp [threadStep] at ha
    | failure m => simp [threadStep] at ha
    | errorEvt e => simp [threadStep] at ha
    | exit c => simp [threadStep] at ha

/-- C9 counterexample: an ExecutableThread with ttl = 100 has already
started executing at construction (the task is posted before the timer is
armed), yet when the TTL timer fires before settlement the thread is
terminated and its promise rejected with the TTL-expiry error — refuting
the claim that TTL expiry can only reject a task that has not yet started
and never terminates or rejects running work. -/
theorem C9_counterexample :
    (mkExecutableThread 100).started = true
    ∧ (mkExecutableThread 100).promise = .pending
    ∧ (threadStep (mkExecutableThread 100) .timer).terminated = true
    ∧ (threadStep (mkExecutableThread 100) .timer).promise
        = .rejected .threadTtlExpired := by
  refine ⟨rfl, rfl, ?_, ?_⟩ <;> decide

/-- C9 amended: in ExecutableThread the TTL bounds the whole lifetime of
the task, not a waiting phase: the task is posted before the timer is
armed (armed at construction iff ttl > 0); while armed the promise is
still pending, and if the timer fires it terminates the worker and rejects
the promise with the TTL-expiry error even though the body is already
running; the timer is disarmed on settlement and a disarmed timer never
fires; a settled promise is never settled again. -/
theorem C9_thread_ttl_amended :
    (∀ ttl : Nat, (mkExecutableThread ttl).started = true
      ∧ (mkExecutableThread ttl).ttlArmed = decide (0 < ttl))
    ∧ (∀ (ttl : Nat) (t : ThreadState), ThreadReachable ttl t →
        t.ttlArmed = true → t.promise = .pending)
    ∧ (∀ t : ThreadState, t.ttlArmed = true →
        (threadStep t .timer).terminated = true
        ∧ (threadStep t .timer).promise = t.promise.rejectOnce .threadTtlExpired)
    ∧ (∀ t : ThreadState, t.ttlArmed = false → threadStep t .timer = t)
    ∧ (∀ (t : ThreadState) (e : ThreadEvent), t.promise ≠ .pending →
        (threadStep t e).promise = t.promise) := by
  refine ⟨fun ttl => ⟨rfl, rfl⟩, fun ttl t h => threadReachable_armed_pending h,
    ?_, ?_, ?_⟩
  · intro t ha
    simp [threadStep, ha]
  · intro t ha
    simp [threadStep, ha]
  · intro t e hp
    cases e with
    | timer =>
      by_cases harm : t.ttlArmed = true
      · simp [threadStep, harm, PromiseState.rejectOnce_of_settled _ _ hp]
      · simp only [Bool.not_eq_true] at harm
        simp [threadStep, harm]
    | success v => simp [threadStep, PromiseState.resolveOnce_of_settled _ _ hp]
    | failure m => simp [threadStep, PromiseState.rejectOnce_of_settled _ _ hp]
    | errorEvt e => simp [threadStep, PromiseState.rejectOnce_of_settled _ _ hp]
    | exit c =>
      by_cases hc : c = 0
      · simp [threadStep, hc]
      · simp [threadStep, hc, PromiseState.rejectOnce_of_settled _ _ hp]

theorem C9_thread_ttl_amended_witness :
    (mkExecutableThread 5).ttlArmed = true
    ∧ (threadStep (mkExecutableThread 5) .timer).terminated = true
    ∧ (threadStep (mkExecutableThread 5) .timer).promise
        = (mkExecutableThread 5).promise.rejectOnce .threadTtlExpired := by
  have h := C9_thread_ttl_amended
  exact ⟨by decide, h.2.2.1 (mkExecutableThread 5) (by decide)⟩

/-! ## map (ThreadPool.map, src/primitives/ThreadPool.ts lines 147-151)

The source is Promise.all(items.map(item => this.execute(fn, [item], ttl))).
Promise.all is the external JS builtin: it resolves with the per-index
values in index order once every input promise resolves, and rejects as a
whole if any input promise rejects.  The per-item promise of execute is
abstracted by its eventual outcome. -/

/-- Promise.all over the already-settled outcomes of a promise list:
ok with all values in input order, or an error when any input erred. -/
def promiseAll {ε β : Type} : List (Except ε β) → Except ε (List β)
  | [] => .ok []
  | .error e :: _ => .error e
  | .ok v :: rest =>
    match promiseAll rest with
    | .ok vs => .ok (v :: vs)
    | .error e => .error e

/-- ThreadPool.map: fan out one execute per item (in caller order) and
combine with Promise.all; `outcome item` is the eventual settlement of
execute(fn, [item], ttl). -/
def poolMap {α ε β : Type} (items : List α) (outcome : α → Except ε β) :
    Except ε (List β) :=
  promiseAll (items.map outcome)

/-- One task completion: the task for index i writes f(items[i]) into its
own slot of the result array. -/
def fillSlot {α β : Type} (items : List α) (f : α → β)
    (slots : List (Option β)) (i : Nat) : List (Option β) :=
  match items[i]? with
  | some x => slots.set i (some (f x))
  | none => slots

/-- Completion-order model: each fanned-out task fills its own slot of the
result array when it completes; `order` is the sequence of indices in
completion order. -/
def runSchedule {α β : Type} (items : List α) (f : α → β) (order : List Nat) :
    List (Option β) :=
  order.foldl (fillSlot items f) (List.replicate items.length none)

theorem fillSlot_length {α β : Type} (items : List α) (f : α → β)
    (slots : List (Option β)) (i : Nat) :
    (fillSlot items f slots i).length = slots.length := by
  cases hx : items[i]? <;> simp [fillSlot, hx]

theorem fillSlot_get_ne {α β : Type} (items : List α) (f : α → β)
    (slots : List (Option β)) (i j : Nat) (h : i ≠ j) :
    (fillSlot items f slots i)[j]? = slots[j]? := by
  cases hx : items[i]? with
  | none => simp [fillSlot, hx]
  | some x => simp [fillSlot, hx, List.getElem?_set_ne h]

theorem runSchedule_foldl_get {α β : Type} (items : List α) (f : α → β)
    (order : List Nat) (init : List (Option β))
    (hlen : init.length = items.length) (j : Nat) :
    (order.foldl (fillSlot items f) init)[j]?
      = if j ∈ order ∧ j < items.length then items[j]?.map (fun x => some (f x))
        else init[j]? := by
  induction order generalizing init with
  | nil => simp
  | cons i rest ih =>
    rw [List.foldl_cons, ih (fillSlot items f init i)
      ((fillSlot_length items f init i).trans hlen)]
    by_cases hjr : j ∈ rest
    · by_cases hj : j < items.length
      · simp [hjr, hj]
      · have hi2 : (fillSlot items f init i)[j]? = init[j]? := by
          cases hx : items[i]? with
          | none => simp [fillSlot, hx]
          | some x =>
            have hilt : i < items.length := by
              by_contra hge
              rw [List.getElem?_eq_none (Nat.le_of_not_lt hge)] at hx
              exact Option.noConfusion hx
            exact fillSlot_get_ne items f init i j (by omega)
        simp [hjr, hj, hi2]
    · by_cases hji : j = i
      · subst hji
        by_cases hj : j < items.length
        · have hx2 : items[j]? = some items[j] := List.getElem?_eq_getElem hj
          have : (fillSlot items f init j)[j]? = some (some (f items[j])) := by
            simp [fillSlot, hx2, List.getElem?_set_self (hlen ▸ hj)]
          simp [hjr, hj, this, hx2]
        · have hx2 : items[j]? = none :=
            List.getElem?_eq_none (Nat.le_of_not_lt hj)
          simp [hjr, hj, fillSlot, hx2]
      · have heq := fillSlot_get_ne items f init i j (fun h => hji h.symm)
        simp [hjr, hji, heq]

/-- C6: the result collection of ThreadPool.map follows the caller's item
order, not completion order — running the fan-out under any completion
schedule that completes every index fills slot i with fn(items[i]), so the
resolved value of map is items.map fn; and map rejects as a whole as soon
as any fanned-out execute fails (no partial results are delivered). -/
theorem C6_map_order_and_failure :
    (∀ {α β : Type} (items : List α) (f : α → β) (order : List Nat),
      (∀ j, j < items.length → j ∈ order) →
      runSchedule items f order = items.map (fun x => some (f x)))
    ∧ (∀ {α ε β : Type} (items : List α) (f : α → β),
        poolMap items (fun x => (.ok (f x) : Except ε β)) = .ok (items.map f))
    ∧ (∀ {α ε β : Type} (items : List α) (outcome : α → Except ε β),
        (∃ x ∈ items, ∃ e, outcome x = .error e) →
        ∃ e, poolMap items outcome = .error e) := by
  refine ⟨?_, ?_, ?_⟩
  · intro α β items f order hcover
    apply List.ext_getElem?
    intro j
    rw [runSchedule, runSchedule_foldl_get items f order _ (by simp) j]
    by_cases hj : j < items.length
    · simp [hcover j hj, hj, List.getElem?_map]
    · have h1 : items[j]? = none := List.getElem?_eq_none (Nat.le_of_not_lt hj)
      have h2 : (List.replicate items.length (none : Option β))[j]? = none :=
        List.getElem?_eq_none (by simpa using Nat.le_of_not_lt hj)
      simp [hj, h1, h2, List.getElem?_map]
  · intro α ε β items f
    rw [poolMap]
    induction items with
    | nil => rfl
    | cons x rest ih => simp only [List.map_cons, promiseAll, ih]
  · intro α ε β items outcome h
    rcases h with ⟨x, hmem, e, herr⟩
    rw [poolMap]
    induction items with
    | nil => simp at hmem
    | cons y rest ih =>
      rcases List.mem_cons.mp hmem with rfl | hmem2
      · simp [promiseAll, herr]
      · cases hy : outcome y with
        | error e2 => exact ⟨e2, by simp [promiseAll, hy]⟩
        | ok v =>
          rcases ih hmem2 with ⟨e3, he3⟩
          refine ⟨e3, ?_⟩
          simp only [List.map_cons, promiseAll, hy, he3]

theorem C6_map_witness :
    runSchedule [3, 1, 2] (fun x => x * 10) [2, 0, 1]
      = [some 30, some 10, some 20]
    ∧ poolMap [3, 1, 2] (fun x => (.ok (x * 10) : Except Nat Nat))
        = .ok [30, 10, 20] := by
  have h := C6_map_order_and_failure
  refine ⟨?_, h.2.1 [3, 1, 2] (fun x => x * 10)⟩
  have h1 := h.1 [3, 1, 2] (fun x => x * 10) [2, 0, 1] (by decide)
  rw [h1]
  rfl

/-! ## The worker pool (src/primitives/ThreadPool.ts)

The scheduler is embedded as a state machine.  Workers are identified by
numeric ids, tasks by their index in an append-only list of task records.
All scheduler bookkeeping runs on the single caller-side event loop, so an
execution of the pool is a sequence of atomic events: an execute() call, a
TTL timer firing (possible only while the timer is armed — clearTimeout
prevents a cleared timer from ever firing), a message from a worker, an
error event of a live worker, and terminate(). -/

/-- Rejection reasons a pool task promise can settle with.  The three
fixed messages of the source are distinct constructors. -/
inductive RejectReason : Type where
  | taskError (msg : Nat)
  | ttlExpired
  | poolTerminated
  | workerCrash (e : Nat)
deriving DecidableEq, Repr

/-- The Task interface of ThreadPool.ts: serialized fn, args,
precomputed transferables, the promise continuations (modelled by the
promise state), the optional TTL timer handle (ttlArmed) and the cancelled
flag.  `dispatchedEver` is a ghost history flag set when the task is
posted to a worker; it does not influence any transition. -/
structure TaskRecord : Type where
  fn : Nat
  args : List Value
  transferables : List Transferable
  promise : PromiseState RejectReason
  ttlArmed : Bool
  cancelled : Bool
  dispatchedEver : Bool

/-- Placeholder record used by the total lookup `PoolState.task`. -/
def defaultTask : TaskRecord :=
  { fn := 0, args := [], transferables := [], promise := .pending,
    ttlArmed := false, cancelled := false, dispatchedEver := false }

/-- The private state of a ThreadPool: workers, availableWorkers (a JS
array used as a stack, head = push/pop end), the two-stack task queue
(holding task ids), the worker-to-task binding map, the append-only task
records, the configured size and default TTL, plus a fresh-id counter for
replacement workers. -/
structure PoolState : Type where
  size : Nat
  defaultTTL : Option Nat
  workers : List Nat
  availableWorkers : List Nat
  taskQueue : Queue Nat
  workerTasks : List (Nat × Nat)
  tasks : List TaskRecord
  nextWorkerId : Nat

def PoolState.task (s : PoolState) (tid : Nat) : TaskRecord :=
  s.tasks.getD tid defaultTask

/-- In-place mutation of one task record (tasks are mutated through the
shared object references held by queue, map and promise closures). -/
def updateTask (s : PoolState) (tid : Nat) (f : TaskRecord → TaskRecord) :
    PoolState :=
  { s with tasks := s.tasks.set tid (f (s.task tid)) }

/-- Map.get on the worker-to-task binding map (first entry with the key;
keys are unique in every reachable state). -/
def mapLookup (m : List (Nat × Nat)) (w : Nat) : Option Nat :=
  match m with
  | [] => none
  | p :: rest => if p.1 = w then some p.2 else mapLookup rest w

/-- Map.set. -/
def mapSet (m : List (Nat × Nat)) (w tid : Nat) : List (Nat × Nat) :=
  (w, tid) :: m.filter (fun p => p.1 != w)

/-- Map.delete. -/
def mapDelete (m : List (Nat × Nat)) (w : Nat) : List (Nat × Nat) :=
  m.filter (fun p => p.1 != w)

/-- JS truthiness of the resolved ttl value in
`if (ttlValue && this.availableWorkers.length === 0)`: undefined and 0 are
falsy. -/
def ttlTruthy : Option Nat → Bool
  | none => false
  | some v => v != 0

/-- `ttl !== undefined ? ttl : this.defaultTTL` (none models undefined). -/
def resolveTTL (ttl dflt : Option Nat) : Option Nat :=
  match ttl with
  | some _ => ttl
  | none => dflt

/-- The record mutation performed at dispatch: clear the TTL timer and
record the post to the worker. -/
def dispatchMark (r : TaskRecord) : TaskRecord :=
  { r with ttlArmed := false, dispatchedEver := true }

/-- One iteration of the processQueue loop body, assuming the guard held:
pop a worker off availableWorkers, dequeue a task; a cancelled task is
skipped and the worker pushed back; otherwise clear the task's TTL timer,
bind it to the worker and post it (dispatchedEver records the post). -/
def popDispatch (s : PoolState) : PoolState :=
  match s.availableWorkers, s.taskQueue.dequeue with
  | w :: restAvail, (some tid, q2) =>
    if (s.task tid).cancelled then
      { s with taskQueue := q2 }
    else
      { (updateTask s tid dispatchMark) with
        availableWorkers := restAvail,
        taskQueue := q2,
        workerTasks := mapSet s.workerTasks w tid }
  | _, _ => s

/-- The while loop of processQueue, with fuel; each iteration dequeues
exactly one task, so the queue size is a sufficient budget. -/
def processQueueAux : Nat → PoolState → PoolState
  | 0, s => s
  | fuel + 1, s =>
    if !s.taskQueue.isEmpty && !s.availableWorkers.isEmpty then
      processQueueAux fuel (popDispatch s)
    else s

def processQueue (s : PoolState) : PoolState :=
  processQueueAux s.taskQueue.size s

/-- The Task object built by execute: transferables are extracted once, at
admission; the TTL timer is armed only when the resolved ttl is truthy AND
no worker is available at admission time. -/
def mkTask (s : PoolState) (fn : Nat) (args : List Value) (ttl : Option Nat) :
    TaskRecord :=
  { fn := fn, args := args,
    transferables := extractTransferables (.arr args),
    promise := .pending,
    ttlArmed := ttlTruthy (resolveTTL ttl s.defaultTTL)
      && s.availableWorkers.isEmpty,
    cancelled := false, dispatchedEver := false }

/-- Admission: append the new task record and enqueue its id. -/
def admitTask (s : PoolState) (tr : TaskRecord) : PoolState :=
  { s with tasks := s.tasks ++ [tr],
           taskQueue := s.taskQueue.enqueue s.tasks.length }

/-- execute(fn, args, ttl): build the task, enqueue it, processQueue. -/
def execute (s : PoolState) (fn : Nat) (args : List Value) (ttl : Option Nat) :
    PoolState :=
  processQueue (admitTask s (mkTask s fn args ttl))

/-- The body of the TTL timer callback on the task record: mark cancelled
and reject with the TTL-expiry error (the fired one-shot timer is down). -/
def ttlReject (r : TaskRecord) : TaskRecord :=
  { r with cancelled := true,
           promise := r.promise.rejectOnce .ttlExpired,
           ttlArmed := false }

/-- The TTL timer handler: fires only while armed (a cleared timer never
fires), marks the task cancelled and rejects it with the TTL-expiry
error. -/
def timerFire (s : PoolState) (tid : Nat) : PoolState :=
  if (s.task tid).ttlArmed then updateTask s tid ttlReject else s

/-- A worker response message. -/
inductive WorkerMsg : Type where
  | success (v : Nat)
  | failure (msg : Nat)
deriving DecidableEq, Repr

/-- The effect of a worker response on its task record: clear the TTL
timer, then resolve on success or reject with the reconstructed task
error on failure. -/
def msgSettle (m : WorkerMsg) (r : TaskRecord) : TaskRecord :=
  { r with ttlArmed := false,
           promise :=
             match m with
             | .success v => r.promise.resolveOnce v
             | .failure e => r.promise.rejectOnce (.taskError e) }

/-- The worker 'message' handler: ignore responses of unbound workers,
apply msgSettle to the bound task, unbind the worker, return it to
availableWorkers, processQueue. -/
def workerMessage (s : PoolState) (w : Nat) (m : WorkerMsg) : PoolState :=
  match mapLookup s.workerTasks w with
  | none => s
  | some tid =>
    let s1 := updateTask s tid (msgSettle m)
    processQueue
      { s1 with workerTasks := mapDelete s1.workerTasks w,
                availableWorkers := w :: s1.availableWorkers }

/-- The effect of a worker crash on its bound task record: clear the TTL
timer and reject with the crash error. -/
def crashReject (err : Nat) (r : TaskRecord) : TaskRecord :=
  { r with ttlArmed := false,
           promise := r.promise.rejectOnce (.workerCrash err) }

/-- The worker 'error' handler plus recoverWorker: only a live pool worker
can emit 'error'; a bound task has its TTL cleared and is rejected with
the crash error and unbound; the dead worker is removed from workers and
availableWorkers and terminated, a fresh replacement is created,
registered and pushed to both lists, then processQueue. -/
def workerCrash (s : PoolState) (w : Nat) (err : Nat) : PoolState :=
  if w ∈ s.workers then
    let s1 :=
      match mapLookup s.workerTasks w with
      | none => s
      | some tid =>
        let sA := updateTask s tid (crashReject err)
        { sA with workerTasks := mapDelete sA.workerTasks w }
    let nw := s1.nextWorkerId
    processQueue
      { s1 with
        workers := nw :: s1.workers.filter (fun x => x != w),
        availableWorkers := nw :: s1.availableWorkers.filter (fun x => x != w),
        nextWorkerId := nw + 1 }
  else s

/-- The effect of terminate() on a still-queued task record: clear its
TTL timer and reject it with the pool-terminated error. -/
def termReject (r : TaskRecord) : TaskRecord :=
  { r with ttlArmed := false,
           promise := r.promise.rejectOnce .poolTerminated }

/-- clearTimeout on a dispatched task record during terminate(). -/
def clearTtl (r : TaskRecord) : TaskRecord := { r with ttlArmed := false }

/-- The queue-draining loop of terminate(): dequeue every task, clear its
TTL timer and reject it with the pool-terminated error. -/
def drainRejectAux : Nat → PoolState → PoolState
  | 0, s => s
  | fuel + 1, s =>
    if s.taskQueue.isEmpty then s
    else
      match s.taskQueue.dequeue with
      | (some tid, q2) =>
        drainRejectAux fuel (updateTask { s with taskQueue := q2 } tid termReject)
      | (none, q2) => { s with taskQueue := q2 }

/-- terminate(): clear the TTL timers of all dispatched tasks, drain and
reject the queue, terminate all workers (their OS handles leave the
model), and reset every collection to empty. -/
def terminate (s : PoolState) : PoolState :=
  let s1 := s.workerTasks.foldl (fun st p => updateTask st p.2 clearTtl) s
  let s2 := drainRejectAux s1.taskQueue.size s1
  { s2 with workers := [], availableWorkers := [],
            taskQueue := Queue.empty, workerTasks := [] }

structure Stats : Type where
  totalWorkers : Nat
  availableWorkers : Nat
  busyWorkers : Nat
  queuedTasks : Nat
deriving DecidableEq, Repr

/-- getStats(). -/
def getStats (s : PoolState) : Stats :=
  { totalWorkers := s.workers.length
    availableWorkers := s.availableWorkers.length
    busyWorkers := s.workers.length - s.availableWorkers.length
    queuedTasks := s.taskQueue.size }

/-- The constructor: size workers (ids 0..size-1, pushed in order),
all available, empty queue and map. -/
def mkPool (size : Nat) (ttl : Option Nat) : PoolState :=
  { size := size, defaultTTL := ttl,
    workers := (List.range size).reverse,
    availableWorkers := (List.range size).reverse,
    taskQueue := Queue.empty, workerTasks := [], tasks := [],
    nextWorkerId := size }

/-- The atomic events of a pool execution. -/
inductive PoolEvent : Type where
  | exec (fn : Nat) (args : List Value) (ttl : Option Nat)
  | timer (tid : Nat)
  | msg (w : Nat) (m : WorkerMsg)
  | crash (w : Nat) (err : Nat)
  | halt

/-- The transition function of the pool. -/
def step (s : PoolState) : PoolEvent → PoolState
  | .exec fn args ttl => execute s fn args ttl
  | .timer tid => timerFire s tid
  | .msg w m => workerMessage s w m
  | .crash w e => workerCrash s w e
  | .halt => terminate s

/-- States reachable by a pool constructed with the given size and
default TTL. -/
inductive Reachable (size : Nat) (dttl : Option Nat) : PoolState → Prop where
  | init : Reachable size dttl (mkPool size dttl)
  | step {s : PoolState} (h : Reachable size dttl s) (e : PoolEvent) :
      Reachable size dttl (step s e)

/-- Reflexive-transitive closure of the transition function. -/
inductive ReachFrom : PoolState → PoolState → Prop where
  | refl (s : PoolState) : ReachFrom s s
  | tail {s t : PoolState} (h : ReachFrom s t) (e : PoolEvent) :
      ReachFrom s (step t e)

theorem Reachable.of_reachFrom {size : Nat} {dttl : Option Nat}
    {s t : PoolState} (hs : Reachable size dttl s) (h : ReachFrom s t) :
    Reachable size dttl t := by
  induction h with
  | refl => exact hs
  | tail h e ih => exact ih.step e

/-! ### Association-map lemmas -/

theorem mapLookup_eq_none_iff (m : List (Nat × Nat)) (w : Nat) :
    mapLookup m w = none ↔ ∀ p ∈ m, p.1 ≠ w := by
  induction m with
  | nil => simp [mapLookup]
  | cons p rest ih =>
    by_cases hp : p.1 = w
    · simp [mapLookup, hp]
    · simp [mapLookup, hp, ih]

theorem mapLookup_some_mem {m : List (Nat × Nat)} {w tid : Nat}
    (h : mapLookup m w = some tid) : (w, tid) ∈ m := by
  induction m with
  | nil => simp [mapLookup] at h
  | cons p rest ih =>
    by_cases hp : p.1 = w
    · rw [mapLookup, if_pos hp] at h
      rcases p with ⟨a, b⟩
      simp at hp h
      simp [hp, h]
    · rw [mapLookup, if_neg hp] at h
      exact List.mem_cons_of_mem _ (ih h)

theorem mem_mapDelete {m : List (Nat × Nat)} {w : Nat} {p : Nat × Nat} :
    p ∈ mapDelete m w ↔ p ∈ m ∧ p.1 ≠ w := by
  simp [mapDelete, List.mem_filter]

theorem mapDelete_sublist (m : List (Nat × Nat)) (w : Nat) :
    (mapDelete m w).Sublist m := List.filter_sublist m

theorem mapLookup_mapDelete_self (m : List (Nat × Nat)) (w : Nat) :
    mapLookup (mapDelete m w) w = none := by
  rw [mapLookup_eq_none_iff]
  intro p hp
  exact (mem_mapDelete.mp hp).2

theorem mapLookup_mapDelete_ne (m : List (Nat × Nat)) (w w2 : Nat)
    (h : w2 ≠ w) : mapLookup (mapDelete m w) w2 = mapLookup m w2 := by
  induction m with
  | nil => simp [mapDelete, mapLookup]
  | cons p rest ih =>
    by_cases hw : p.1 = w
    · have h1 : mapDelete (p :: rest) w = mapDelete rest w := by
        simp [mapDelete, List.filter_cons, hw]
      rw [h1, ih, mapLookup, if_neg (by omega : ¬ p.1 = w2)]
    · have h1 : mapDelete (p :: rest) w = p :: mapDelete rest w := by
        simp [mapDelete, List.filter_cons, hw]
      rw [h1, mapLookup, mapLookup]
      by_cases hw2 : p.1 = w2
      · rw [if_pos hw2, if_pos hw2]
      · rw [if_neg hw2, if_neg hw2]
        exact ih

theorem mapDelete_of_lookup_none {m : List (Nat × Nat)} {w : Nat}
    (h : mapLookup m w = none) : mapDelete m w = m := by
  rw [mapLookup_eq_none_iff] at h
  apply List.filter_eq_self.mpr
  intro p hp
  simpa using h p hp

theorem mapLookup_mapSet_self (m : List (Nat × Nat)) (w tid : Nat) :
    mapLookup (mapSet m w tid) w = some tid := by
  simp [mapSet, mapLookup]

theorem mapLookup_mapSet_ne (m : List (Nat × Nat)) (w tid w2 : Nat)
    (h : w2 ≠ w) : mapLookup (mapSet m w tid) w2 = mapLookup m w2 := by
  rw [mapSet, mapLookup]
  simp only [if_neg (by omega : ¬ w = w2)]
  exact mapLookup_mapDelete_ne m w w2 h

theorem mem_mapSet {m : List (Nat × Nat)} {w tid : Nat} {p : Nat × Nat} :
    p ∈ mapSet m w tid ↔ p = (w, tid) ∨ (p ∈ m ∧ p.1 ≠ w) := by
  simp [mapSet, List.mem_filter]

theorem length_mapDelete_of_mem {m : List (Nat × Nat)} {w tid : Nat}
    (hmem : (w, tid) ∈ m) (hnodup : (m.map Prod.fst).Nodup) :
    (mapDelete m w).length + 1 = m.length := by
  induction m with
  | nil => simp at hmem
  | cons p rest ih =>
    have hpair := List.nodup_cons.mp (by rwa [List.map_cons] at hnodup)
    have hnotin : p.1 ∉ rest.map Prod.fst := hpair.1
    have hnodup2 : (rest.map Prod.fst).Nodup := hpair.2
    rcases List.mem_cons.mp hmem with heq | hmem2
    · cases heq
      have hnone : mapLookup rest w = none := by
        rw [mapLookup_eq_none_iff]
        intro q hq hqw
        exact hnotin (List.mem_map.mpr ⟨q, hq, by simpa using hqw⟩)
      have h1 : mapDelete ((w, tid) :: rest) w = rest := by
        have h2 := mapDelete_of_lookup_none hnone
        rw [mapDelete] at h2 ⊢
        simpa [List.filter_cons] using h2
      rw [h1]
      simp
    · have hkey : p.1 ≠ w := by
        intro hpw
        exact hnotin (List.mem_map.mpr ⟨(w, tid), hmem2, by simpa using hpw.symm⟩)
      have h1 : mapDelete (p :: rest) w = p :: mapDelete rest w := by
        simp [mapDelete, List.filter_cons, hkey]
      rw [h1, List.length_cons, List.length_cons]
      have := ih hmem2 hnodup2
      omega

theorem keys_mapDelete_nodup {m : List (Nat × Nat)} {w : Nat}
    (h : (m.map Prod.fst).Nodup) : ((mapDelete m w).map Prod.fst).Nodup :=
  ((mapDelete_sublist m w).map Prod.fst).nodup h

theorem keys_mapSet_nodup {m : List (Nat × Nat)} {w tid : Nat}
    (h : (m.map Prod.fst).Nodup) : ((mapSet m w tid).map Prod.fst).Nodup := by
  rw [mapSet]
  simp only [List.map_cons, List.nodup_cons]
  constructor
  · intro hw
    rcases List.mem_map.mp hw with ⟨p, hp, hpw⟩
    exact (mem_mapDelete.mp hp).2 hpw
  · exact keys_mapDelete_nodup h

/-! ### Task-record update lemmas -/

theorem task_updateTask_self (s : PoolState) (tid : Nat)
    (f : TaskRecord → TaskRecord) (h : tid < s.tasks.length) :
    (updateTask s tid f).task tid = f (s.task tid) := by
  simp [updateTask, PoolState.task, List.getD_eq_getElem?_getD,
    List.getElem?_set_self (by simpa using h)]

theorem task_updateTask_ne (s : PoolState) (tid tid2 : Nat)
    (f : TaskRecord → TaskRecord) (h : tid2 ≠ tid) :
    (updateTask s tid f).task tid2 = s.task tid2 := by
  simp [updateTask, PoolState.task, List.getD_eq_getElem?_getD,
    List.getElem?_set_ne (fun he => h he.symm)]

theorem updateTask_of_ge (s : PoolState) (tid : Nat)
    (f : TaskRecord → TaskRecord) (h : s.tasks.length ≤ tid) :
    updateTask s tid f = s := by
  simp [updateTask, List.set_eq_of_length_le h]

theorem tasks_length_updateTask (s : PoolState) (tid : Nat)
    (f : TaskRecord → TaskRecord) :
    (updateTask s tid f).tasks.length = s.tasks.length := by
  simp [updateTask]

theorem task_of_ge (s : PoolState) (tid : Nat) (h : s.tasks.length ≤ tid) :
    s.task tid = defaultTask := by
  simp [PoolState.task, List.getD_eq_getElem?_getD, List.getElem?_eq_none h]

/-! ### Queue helper -/

theorem Queue.dequeue_cases {α : Type} (q : Queue α) (h : q.isEmpty ≠ true) :
    ∃ x q2, q.dequeue = (some x, q2) ∧ q.toList = x :: q2.toList := by
  have htl : q.toList ≠ [] := fun he => h ((Queue.isEmpty_iff q).mpr he)
  rcases hl : q.toList with _ | ⟨x, rest⟩
  · exact absurd hl htl
  · have hf := Queue.dequeue_fst q
    have hs := Queue.dequeue_snd_toList q
    rcases hd : q.dequeue with ⟨o, q2⟩
    rw [hd] at hf hs
    rw [hl] at hf hs
    simp at hf hs
    refine ⟨x, q2, ?_, ?_⟩
    · rw [hf]
    · rw [hs]

/-! ### Reduction lemmas for popDispatch -/

theorem popDispatch_avail_nil {s : PoolState} (ha : s.availableWorkers = []) :
    popDispatch s = s := by
  rw [popDispatch.eq_def, ha]

theorem popDispatch_dequeue_none {s : PoolState} {q2 : Queue Nat}
    (hd : s.taskQueue.dequeue = (none, q2)) : popDispatch s = s := by
  rw [popDispatch.eq_def, hd]
  rcases ha : s.availableWorkers with _ | ⟨w, rest⟩ <;> simp

theorem popDispatch_skip {s : PoolState} {w : Nat} {restAvail : List Nat}
    {tid : Nat} {q2 : Queue Nat} (ha : s.availableWorkers = w :: restAvail)
    (hd : s.taskQueue.dequeue = (some tid, q2))
    (hc : (s.task tid).cancelled = true) :
    popDispatch s = { s with taskQueue := q2 } := by
  rw [popDispatch.eq_def, ha, hd]
  simp [hc]

theorem popDispatch_dispatch {s : PoolState} {w : Nat} {restAvail : List Nat}
    {tid : Nat} {q2 : Queue Nat} (ha : s.availableWorkers = w :: restAvail)
    (hd : s.taskQueue.dequeue = (some tid, q2))
    (hc : (s.task tid).cancelled = false) :
    popDispatch s =
      { (updateTask s tid dispatchMark) with
        availableWorkers := restAvail,
        taskQueue := q2,
        workerTasks := mapSet s.workerTasks w tid } := by
  rw [popDispatch.eq_def, ha, hd]
  simp [hc]

/-! ### The pool invariant

Everything the claims need about a reachable pool state: well-formedness of
the worker sets and the binding map, the availability partition, and the
lifecycle facts relating task records, the queue and the bindings. -/

structure Inv (s : PoolState) : Prop where
  workersNodup : s.workers.Nodup
  availNodup : s.availableWorkers.Nodup
  availSub : ∀ w ∈ s.availableWorkers, w ∈ s.workers
  boundSub : ∀ p ∈ s.workerTasks, p.1 ∈ s.workers
  keysNodup : (s.workerTasks.map Prod.fst).Nodup
  tidsNodup : (s.workerTasks.map Prod.snd).Nodup
  availUnbound : ∀ w ∈ s.availableWorkers, mapLookup s.workerTasks w = none
  workerCover : ∀ w ∈ s.workers,
      w ∈ s.availableWorkers ∨ mapLookup s.workerTasks w ≠ none
  sizeEq : s.workers.length = s.availableWorkers.length + s.workerTasks.length
  workersLt : ∀ w ∈ s.workers, w < s.nextWorkerId
  boundTid : ∀ p ∈ s.workerTasks, p.2 < s.tasks.length
  boundClean : ∀ p ∈ s.workerTasks,
      (s.task p.2).ttlArmed = false ∧ (s.task p.2).cancelled = false
      ∧ (s.task p.2).promise = .pending ∧ (s.task p.2).dispatchedEver = true
  boundNotQueued : ∀ p ∈ s.workerTasks, p.2 ∉ s.taskQueue.toList
  queueTid : ∀ t ∈ s.taskQueue.toList, t < s.tasks.length
  queueNodup : s.taskQueue.toList.Nodup
  queueFresh : ∀ t ∈ s.taskQueue.toList, (s.task t).dispatchedEver = false
  queuePending : ∀ t ∈ s.taskQueue.toList,
      (s.task t).cancelled = false → (s.task t).promise = .pending
  cancelledRejected : ∀ t : Nat, (s.task t).cancelled = true →
      (s.task t).promise = .rejected .ttlExpired ∧ (s.task t).ttlArmed = false
  armedQueued : ∀ t : Nat, (s.task t).ttlArmed = true → t ∈ s.taskQueue.toList
  pendingFreshQueued : ∀ t : Nat, t < s.tasks.length →
      (s.task t).promise = .pending → (s.task t).dispatchedEver = false →
      t ∈ s.taskQueue.toList

theorem inv_mkPool (size : Nat) (dttl : Option Nat) : Inv (mkPool size dttl) := by
  refine ⟨?_, ?_, ?_, ?_, ?_, ?_, ?_, ?_, ?_, ?_, ?_, ?_, ?_, ?_, ?_, ?_, ?_,
    ?_, ?_, ?_⟩ <;>
    simp [mkPool, Queue.toList, Queue.empty, PoolState.task, defaultTask,
      mapLookup, List.nodup_reverse, List.nodup_range, Queue.size]

theorem popDispatch_inv {s : PoolState} (hI : Inv s) : Inv (popDispatch s) := by
  rcases ha : s.availableWorkers with _ | ⟨w, restAvail⟩
  · rw [popDispatch_avail_nil ha]; exact hI
  rcases hd : s.taskQueue.dequeue with ⟨o, q2⟩
  cases o with
  | none => rw [popDispatch_dequeue_none hd]; exact hI
  | some tid =>
  have hf := Queue.dequeue_fst s.taskQueue
  have hs := Queue.dequeue_snd_toList s.taskQueue
  rw [hd] at hf hs
  have htoList : s.taskQueue.toList = tid :: q2.toList := by
    rcases hl : s.taskQueue.toList with _ | ⟨x, rest⟩
    · rw [hl] at hf; exact absurd hf (by simp)
    · rw [hl] at hf hs
      simp at hf hs
      subst hf
      rw [hs]
  have htid_mem : tid ∈ s.taskQueue.toList := by
    rw [htoList]; exact List.mem_cons_self _ _
  have htid_lt : tid < s.tasks.length := hI.queueTid tid htid_mem
  have hq2_sub : ∀ t ∈ q2.toList, t ∈ s.taskQueue.toList := by
    intro t ht; rw [htoList]; exact List.mem_cons_of_mem _ ht
  have hq2_pair : q2.toList.Nodup ∧ tid ∉ q2.toList := by
    have hn := hI.queueNodup
    rw [htoList] at hn
    exact ⟨(List.nodup_cons.mp hn).2, (List.nodup_cons.mp hn).1⟩
  have hne_tid_q2 : ∀ t ∈ q2.toList, t ≠ tid := fun t ht he => hq2_pair.2 (he ▸ ht)
  by_cases hc : (s.task tid).cancelled = true
  · rw [popDispatch_skip ha hd hc]
    exact {
      workersNodup := hI.workersNodup
      availNodup := hI.availNodup
      availSub := hI.availSub
      boundSub := hI.boundSub
      keysNodup := hI.keysNodup
      tidsNodup := hI.tidsNodup
      availUnbound := hI.availUnbound
      workerCover := hI.workerCover
      sizeEq := hI.sizeEq
      workersLt := hI.workersLt
      boundTid := hI.boundTid
      boundClean := hI.boundClean
      boundNotQueued := fun p hp ht =>
        hI.boundNotQueued p hp (hq2_sub p.2 ht)
      queueTid := fun t ht => hI.queueTid t (hq2_sub t ht)
      queueNodup := hq2_pair.1
      queueFresh := fun t ht => hI.queueFresh t (hq2_sub t ht)
      queuePending := fun t ht => hI.queuePending t (hq2_sub t ht)
      cancelledRejected := hI.cancelledRejected
      armedQueued := by
        intro t hat
        have hat2 : (s.task t).ttlArmed = true := hat
        have hmem := hI.armedQueued t hat2
        rw [htoList] at hmem
        rcases List.mem_cons.mp hmem with rfl | hmem2
        · rw [(hI.cancelledRejected t hc).2] at hat2
          exact absurd hat2 (by simp)
        · exact hmem2
      pendingFreshQueued := by
        intro t hlt hpend hfresh
        have hlt2 : t < s.tasks.length := hlt
        have hpend2 : (s.task t).promise = .pending := hpend
        have hfresh2 : (s.task t).dispatchedEver = false := hfresh
        have hmem := hI.pendingFreshQueued t hlt2 hpend2 hfresh2
        rw [htoList] at hmem
        rcases List.mem_cons.mp hmem with rfl | hmem2
        · rw [(hI.cancelledRejected t hc).1] at hpend2
          exact absurd hpend2 (by simp)
        · exact hmem2 }
  · have hc2 : (s.task tid).cancelled = false := by simpa using hc
    have hw_mem_avail : w ∈ s.availableWorkers := by
      rw [ha]; exact List.mem_cons_self _ _
    have hw_workers : w ∈ s.workers := hI.availSub w hw_mem_avail
    have hw_unbound : mapLookup s.workerTasks w = none :=
      hI.availUnbound w hw_mem_avail
    have havail_nodup := hI.availNodup
    rw [ha] at havail_nodup
    have hw_not_rest : w ∉ restAvail := (List.nodup_cons.mp havail_nodup).1
    have hrest_nodup : restAvail.Nodup := (List.nodup_cons.mp havail_nodup).2
    have hbound_ne_tid : ∀ p ∈ s.workerTasks, p.2 ≠ tid := by
      intro p hp he
      exact hI.boundNotQueued p hp (he ▸ htid_mem)
    have hpend_tid : (s.task tid).promise = .pending :=
      hI.queuePending tid htid_mem hc2
    rw [popDispatch_dispatch ha hd hc2]
    have hTself : (updateTask s tid dispatchMark).task tid
        = dispatchMark (s.task tid) :=
      task_updateTask_self s tid _ htid_lt
    have hTne : ∀ t2, t2 ≠ tid →
        (updateTask s tid dispatchMark).task t2 = s.task t2 :=
      fun t2 h2 => task_updateTask_ne s tid t2 _ h2
    exact {
      workersNodup := hI.workersNodup
      availNodup := hrest_nodup
      availSub := fun w2 h2 =>
        hI.availSub w2 (by rw [ha]; exact List.mem_cons_of_mem _ h2)
      boundSub := by
        intro p hp
        have hp2 : p ∈ mapSet s.workerTasks w tid := hp
        rcases mem_mapSet.mp hp2 with rfl | ⟨hpm, _⟩
        · exact hw_workers
        · exact hI.boundSub p hpm
      keysNodup := keys_mapSet_nodup hI.keysNodup
      tidsNodup := by
        show ((mapSet s.workerTasks w tid).map Prod.snd).Nodup
        rw [mapSet, List.map_cons, List.nodup_cons]
        constructor
        · intro hmem
          rcases List.mem_map.mp hmem with ⟨p, hp, hptid⟩
          have hpm : p ∈ s.workerTasks := (mem_mapDelete.mp hp).1
          exact hbound_ne_tid p hpm hptid
        · exact List.Nodup.sublist
            ((mapDelete_sublist s.workerTasks w).map Prod.snd) hI.tidsNodup
      availUnbound := by
        intro w2 h2
        have h3 : w2 ∈ restAvail := h2
        have hne : w2 ≠ w := fun he => hw_not_rest (he ▸ h3)
        show mapLookup (mapSet s.workerTasks w tid) w2 = none
        rw [mapLookup_mapSet_ne _ _ _ _ hne]
        exact hI.availUnbound w2 (by rw [ha]; exact List.mem_cons_of_mem _ h3)
      workerCover := by
        intro x hx
        have hx2 : x ∈ s.workers := hx
        rcases hI.workerCover x hx2 with hav | hbd
        · rw [ha] at hav
          rcases List.mem_cons.mp hav with rfl | hrest
          · right
            show mapLookup (mapSet s.workerTasks x tid) x ≠ none
            rw [mapLookup_mapSet_self]
            simp
          · left; exact hrest
        · right
          have hne : x ≠ w := by
            intro he
            rw [he, hw_unbound] at hbd
            exact hbd rfl
          show mapLookup (mapSet s.workerTasks w tid) x ≠ none
          rw [mapLookup_mapSet_ne _ _ _ _ hne]
          exact hbd
      sizeEq := by
        show s.workers.length
          = restAvail.length + (mapSet s.workerTasks w tid).length
        have h1 := hI.sizeEq
        rw [ha] at h1
        have h2 : (mapSet s.workerTasks w tid).length
            = s.workerTasks.length + 1 := by
          rw [mapSet, List.length_cons]
          rw [show (List.filter (fun p => p.1 != w) s.workerTasks)
              = mapDelete s.workerTasks w from rfl]
          rw [mapDelete_of_lookup_none hw_unbound]
        rw [h2]
        simp at h1
        omega
      workersLt := hI.workersLt
      boundTid := by
        intro p hp
        have hp2 : p ∈ mapSet s.workerTasks w tid := hp
        show p.2 < (updateTask s tid dispatchMark).tasks.length
        rw [tasks_length_updateTask]
        rcases mem_mapSet.mp hp2 with rfl | ⟨hpm, _⟩
        · exact htid_lt
        · exact hI.boundTid p hpm
      boundClean := by
        intro p hp
        have hp2 : p ∈ mapSet s.workerTasks w tid := hp
        rcases mem_mapSet.mp hp2 with rfl | ⟨hpm, _⟩
        · show ((updateTask s tid dispatchMark).task tid).ttlArmed = false
            ∧ ((updateTask s tid dispatchMark).task tid).cancelled = false
            ∧ ((updateTask s tid dispatchMark).task tid).promise = .pending
            ∧ ((updateTask s tid dispatchMark).task tid).dispatchedEver = true
          rw [hTself]
          exact ⟨rfl, hc2, hpend_tid, rfl⟩
        · show ((updateTask s tid dispatchMark).task p.2).ttlArmed = false
            ∧ ((updateTask s tid dispatchMark).task p.2).cancelled = false
            ∧ ((updateTask s tid dispatchMark).task p.2).promise = .pending
            ∧ ((updateTask s tid dispatchMark).task p.2).dispatchedEver = true
          rw [hTne p.2 (hbound_ne_tid p hpm)]
          exact hI.boundClean p hpm
      boundNotQueued := by
        intro p hp ht
        have hp2 : p ∈ mapSet s.workerTasks w tid := hp
        have ht2 : p.2 ∈ q2.toList := ht
        rcases mem_mapSet.mp hp2 with rfl | ⟨hpm, _⟩
        · exact hq2_pair.2 ht2
        · exact hI.boundNotQueued p hpm (hq2_sub p.2 ht2)
      queueTid := by
        intro t ht
        have ht2 : t ∈ q2.toList := ht
        show t < (updateTask s tid dispatchMark).tasks.length
        rw [tasks_length_updateTask]
        exact hI.queueTid t (hq2_sub t ht2)
      queueNodup := hq2_pair.1
      queueFresh := by
        intro t ht
        have ht2 : t ∈ q2.toList := ht
        show ((updateTask s tid dispatchMark).task t).dispatchedEver = false
        rw [hTne t (hne_tid_q2 t ht2)]
        exact hI.queueFresh t (hq2_sub t ht2)
      queuePending := by
        intro t ht
        have ht2 : t ∈ q2.toList := ht
        show ((updateTask s tid dispatchMark).task t).cancelled = false →
          ((updateTask s tid dispatchMark).task t).promise = .pending
        rw [hTne t (hne_tid_q2 t ht2)]
        exact hI.queuePending t (hq2_sub t ht2)
      cancelledRejected := by
        intro t hcanc
        by_cases hne : t = tid
        · subst hne
          have hcanc2 : ((updateTask s t dispatchMark).task t).cancelled = true :=
            hcanc
          rw [hTself] at hcanc2
          have hcanc3 : (s.task t).cancelled = true := hcanc2
          rw [hc2] at hcanc3
          exact absurd hcanc3 (by simp)
        · have hcanc2 : ((updateTask s tid dispatchMark).task t).cancelled = true :=
            hcanc
          rw [hTne t hne] at hcanc2
          show ((updateTask s tid dispatchMark).task t).promise
              = .rejected .ttlExpired
            ∧ ((updateTask s tid dispatchMark).task t).ttlArmed = false
          rw [hTne t hne]
          exact hI.cancelledRejected t hcanc2
      armedQueued := by
        intro t hat
        by_cases hne : t = tid
        · subst hne
          have hat2 : ((updateTask s t dispatchMark).task t).ttlArmed = true := hat
          rw [hTself] at hat2
          have hat3 : (dispatchMark (s.task t)).ttlArmed = true := hat2
          rw [show (dispatchMark (s.task t)).ttlArmed = false from rfl] at hat3
          exact absurd hat3 (by simp)
        · have hat2 : ((updateTask s tid dispatchMark).task t).ttlArmed = true :=
            hat
          rw [hTne t hne] at hat2
          have hmem := hI.armedQueued t hat2
          rw [htoList] at hmem
          rcases List.mem_cons.mp hmem with heq | hmem2
          · exact absurd heq hne
          · exact hmem2
      pendingFreshQueued := by
        intro t hlt hpend hfresh
        by_cases hne : t = tid
        · subst hne
          have hfresh2 :
              ((updateTask s t dispatchMark).task t).dispatchedEver = false :=
            hfresh
          rw [hTself] at hfresh2
          have hfresh3 : (dispatchMark (s.task t)).dispatchedEver = false :=
            hfresh2
          rw [show (dispatchMark (s.task t)).dispatchedEver = true from rfl]
            at hfresh3
          exact absurd hfresh3 (by simp)
        · have hlt2 : t < s.tasks.length := by
            have h3 : t < (updateTask s tid dispatchMark).tasks.length := hlt
            rwa [tasks_length_updateTask] at h3
          have hpend2 : ((updateTask s tid dispatchMark).task t).promise
              = .pending := hpend
          have hfresh2 : ((updateTask s tid dispatchMark).task t).dispatchedEver
              = false := hfresh
          rw [hTne t hne] at hpend2 hfresh2
          have hmem := hI.pendingFreshQueued t hlt2 hpend2 hfresh2
          rw [htoList] at hmem
          rcases List.mem_cons.mp hmem with heq | hmem2
          · exact absurd heq hne
          · exact hmem2 }

/-! ### Frame lemmas for the dispatch loop -/

theorem popDispatch_frames (s : PoolState) :
    (popDispatch s).workers = s.workers
    ∧ (popDispatch s).defaultTTL = s.defaultTTL
    ∧ (popDispatch s).nextWorkerId = s.nextWorkerId
    ∧ (popDispatch s).size = s.size
    ∧ (popDispatch s).tasks.length = s.tasks.length := by
  rcases ha : s.availableWorkers with _ | ⟨w, restAvail⟩
  · rw [popDispatch_avail_nil ha]; exact ⟨rfl, rfl, rfl, rfl, rfl⟩
  rcases hd : s.taskQueue.dequeue with ⟨o, q2⟩
  cases o with
  | none => rw [popDispatch_dequeue_none hd]; exact ⟨rfl, rfl, rfl, rfl, rfl⟩
  | some tid =>
    by_cases hc : (s.task tid).cancelled = true
    · rw [popDispatch_skip ha hd hc]; exact ⟨rfl, rfl, rfl, rfl, rfl⟩
    · rw [popDispatch_dispatch ha hd (by simpa using hc)]
      exact ⟨rfl, rfl, rfl, rfl, tasks_length_updateTask s tid dispatchMark⟩

theorem popDispatch_task_promise (s : PoolState) (t2 : Nat) :
    ((popDispatch s).task t2).promise = (s.task t2).promise := by
  rcases ha : s.availableWorkers with _ | ⟨w, restAvail⟩
  · rw [popDispatch_avail_nil ha]
  rcases hd : s.taskQueue.dequeue with ⟨o, q2⟩
  cases o with
  | none => rw [popDispatch_dequeue_none hd]
  | some tid =>
    by_cases hc : (s.task tid).cancelled = true
    · rw [popDispatch_skip ha hd hc]; rfl
    · rw [popDispatch_dispatch ha hd (by simpa using hc)]
      show ((updateTask s tid dispatchMark).task t2).promise = _
      by_cases hne : t2 = tid
      · subst hne
        by_cases hlt : t2 < s.tasks.length
        · rw [task_updateTask_self s t2 _ hlt]; rfl
        · rw [updateTask_of_ge s t2 _ (Nat.le_of_not_lt hlt)]
      · rw [task_updateTask_ne s tid t2 _ hne]

theorem popDispatch_task_cancelled (s : PoolState) (t2 : Nat) :
    ((popDispatch s).task t2).cancelled = (s.task t2).cancelled := by
  rcases ha : s.availableWorkers with _ | ⟨w, restAvail⟩
  · rw [popDispatch_avail_nil ha]
  rcases hd : s.taskQueue.dequeue with ⟨o, q2⟩
  cases o with
  | none => rw [popDispatch_dequeue_none hd]
  | some tid =>
    by_cases hc : (s.task tid).cancelled = true
    · rw [popDispatch_skip ha hd hc]; rfl
    · rw [popDispatch_dispatch ha hd (by simpa using hc)]
      show ((updateTask s tid dispatchMark).task t2).cancelled = _
      by_cases hne : t2 = tid
      · subst hne
        by_cases hlt : t2 < s.tasks.length
        · rw [task_updateTask_self s t2 _ hlt]; rfl
        · rw [updateTask_of_ge s t2 _ (Nat.le_of_not_lt hlt)]
      · rw [task_updateTask_ne s tid t2 _ hne]

theorem popDispatch_armed_mono (s : PoolState) (t2 : Nat)
    (h : (s.task t2).ttlArmed = false) :
    ((popDispatch s).task t2).ttlArmed = false := by
  rcases ha : s.availableWorkers with _ | ⟨w, restAvail⟩
  · rw [popDispatch_avail_nil ha]; exact h
  rcases hd : s.taskQueue.dequeue with ⟨o, q2⟩
  cases o with
  | none => rw [popDispatch_dequeue_none hd]; exact h
  | some tid =>
    by_cases hc : (s.task tid).cancelled = true
    · rw [popDispatch_skip ha hd hc]; exact h
    · rw [popDispatch_dispatch ha hd (by simpa using hc)]
      show ((updateTask s tid dispatchMark).task t2).ttlArmed = false
      by_cases hne : t2 = tid
      · subst hne
        by_cases hlt : t2 < s.tasks.length
        · rw [task_updateTask_self s t2 _ hlt]; rfl
        · rw [updateTask_of_ge s t2 _ (Nat.le_of_not_lt hlt)]; exact h
      · rw [task_updateTask_ne s tid t2 _ hne]; exact h

theorem popDispatch_dispatched_mono (s : PoolState) (t2 : Nat)
    (h : (s.task t2).dispatchedEver = true) :
    ((popDispatch s).task t2).dispatchedEver = true := by
  rcases ha : s.availableWorkers with _ | ⟨w, restAvail⟩
  · rw [popDispatch_avail_nil ha]; exact h
  rcases hd : s.taskQueue.dequeue with ⟨o, q2⟩
  cases o with
  | none => rw [popDispatch_dequeue_none hd]; exact h
  | some tid =>
    by_cases hc : (s.task tid).cancelled = true
    · rw [popDispatch_skip ha hd hc]; exact h
    · rw [popDispatch_dispatch ha hd (by simpa using hc)]
      show ((updateTask s tid dispatchMark).task t2).dispatchedEver = true
      by_cases hne : t2 = tid
      · subst hne
        by_cases hlt : t2 < s.tasks.length
        · rw [task_updateTask_self s t2 _ hlt]; rfl
        · rw [updateTask_of_ge s t2 _ (Nat.le_of_not_lt hlt)]; exact h
      · rw [task_updateTask_ne s tid t2 _ hne]; exact h

theorem popDispatch_avail_subset (s : PoolState) (x : Nat)
    (h : x ∈ (popDispatch s).availableWorkers) : x ∈ s.availableWorkers := by
  rcases ha : s.availableWorkers with _ | ⟨w, restAvail⟩
  · rw [popDispatch_avail_nil ha] at h; rwa [ha] at h
  rcases hd : s.taskQueue.dequeue with ⟨o, q2⟩
  cases o with
  | none => rw [popDispatch_dequeue_none hd] at h; rwa [ha] at h
  | some tid =>
    by_cases hc : (s.task tid).cancelled = true
    · rw [popDispatch_skip ha hd hc] at h
      have h2 : x ∈ s.availableWorkers := h
      rwa [ha] at h2
    · rw [popDispatch_dispatch ha hd (by simpa using hc)] at h
      have h2 : x ∈ restAvail := h
      exact List.mem_cons_of_mem _ h2

theorem popDispatch_track {s : PoolState} (hI : Inv s) (x : Nat)
    (h : x ∈ s.availableWorkers ∨ mapLookup s.workerTasks x ≠ none) :
    x ∈ (popDispatch s).availableWorkers
    ∨ mapLookup (popDispatch s).workerTasks x ≠ none := by
  rcases ha : s.availableWorkers with _ | ⟨w, restAvail⟩
  · rw [popDispatch_avail_nil ha]; exact h
  rcases hd : s.taskQueue.dequeue with ⟨o, q2⟩
  cases o with
  | none => rw [popDispatch_dequeue_none hd]; exact h
  | some tid =>
    by_cases hc : (s.task tid).cancelled = true
    · rw [popDispatch_skip ha hd hc]; exact h
    · rw [popDispatch_dispatch ha hd (by simpa using hc)]
      rcases h with hav | hbd
      · rw [ha] at hav
        rcases List.mem_cons.mp hav with rfl | hrest
        · right
          show mapLookup (mapSet s.workerTasks x tid) x ≠ none
          rw [mapLookup_mapSet_self]
          simp
        · left; exact hrest
      · right
        have hw_unbound : mapLookup s.workerTasks w = none :=
          hI.availUnbound w (by rw [ha]; exact List.mem_cons_self _ _)
        have hne : x ≠ w := by
          intro he
          rw [he, hw_unbound] at hbd
          exact hbd rfl
        show mapLookup (mapSet s.workerTasks w tid) x ≠ none
        rw [mapLookup_mapSet_ne _ _ _ _ hne]
        exact hbd

theorem popDispatch_bound_persist {s : PoolState} (hI : Inv s) (x tid0 : Nat)
    (h : mapLookup s.workerTasks x = some tid0) :
    mapLookup (popDispatch s).workerTasks x = some tid0 := by
  rcases ha : s.availableWorkers with _ | ⟨w, restAvail⟩
  · rw [popDispatch_avail_nil ha]; exact h
  rcases hd : s.taskQueue.dequeue with ⟨o, q2⟩
  cases o with
  | none => rw [popDispatch_dequeue_none hd]; exact h
  | some tid =>
    by_cases hc : (s.task tid).cancelled = true
    · rw [popDispatch_skip ha hd hc]; exact h
    · rw [popDispatch_dispatch ha hd (by simpa using hc)]
      have hw_unbound : mapLookup s.workerTasks w = none :=
        hI.availUnbound w (by rw [ha]; exact List.mem_cons_self _ _)
      have hne : x ≠ w := by
        intro he
        rw [he, hw_unbound] at h
        exact Option.noConfusion h
      show mapLookup (mapSet s.workerTasks w tid) x = some tid0
      rw [mapLookup_mapSet_ne _ _ _ _ hne]
      exact h

/-! ### Lemmas for the whole processQueue loop -/

theorem processQueueAux_inv (fuel : Nat) {s : PoolState} (hI : Inv s) :
    Inv (processQueueAux fuel s) := by
  induction fuel generalizing s with
  | zero => exact hI
  | succ fuel ih =>
    rw [processQueueAux]
    split
    · exact ih (popDispatch_inv hI)
    · exact hI

theorem processQueueAux_frames (fuel : Nat) (s : PoolState) :
    (processQueueAux fuel s).workers = s.workers
    ∧ (processQueueAux fuel s).defaultTTL = s.defaultTTL
    ∧ (processQueueAux fuel s).nextWorkerId = s.nextWorkerId
    ∧ (processQueueAux fuel s).size = s.size
    ∧ (processQueueAux fuel s).tasks.length = s.tasks.length := by
  induction fuel generalizing s with
  | zero => exact ⟨rfl, rfl, rfl, rfl, rfl⟩
  | succ fuel ih =>
    rw [processQueueAux]
    split
    · have h1 := ih (popDispatch s)
      have h2 := popDispatch_frames s
      exact ⟨h1.1.trans h2.1, h1.2.1.trans h2.2.1, h1.2.2.1.trans h2.2.2.1,
        h1.2.2.2.1.trans h2.2.2.2.1, h1.2.2.2.2.trans h2.2.2.2.2⟩
    · exact ⟨rfl, rfl, rfl, rfl, rfl⟩

theorem processQueueAux_task_promise (fuel : Nat) (s : PoolState) (t2 : Nat) :
    ((processQueueAux fuel s).task t2).promise = (s.task t2).promise := by
  induction fuel generalizing s with
  | zero => rfl
  | succ fuel ih =>
    rw [processQueueAux]
    split
    · exact (ih (popDispatch s)).trans (popDispatch_task_promise s t2)
    · rfl

theorem processQueueAux_task_cancelled (fuel : Nat) (s : PoolState) (t2 : Nat) :
    ((processQueueAux fuel s).task t2).cancelled = (s.task t2).cancelled := by
  induction fuel generalizing s with
  | zero => rfl
  | succ fuel ih =>
    rw [processQueueAux]
    split
    · exact (ih (popDispatch s)).trans (popDispatch_task_cancelled s t2)
    · rfl

theorem processQueueAux_armed_mono (fuel : Nat) (s : PoolState) (t2 : Nat)
    (h : (s.task t2).ttlArmed = false) :
    ((processQueueAux fuel s).task t2).ttlArmed = false := by
  induction fuel generalizing s with
  | zero => exact h
  | succ fuel ih =>
    rw [processQueueAux]
    split
    · exact ih (popDispatch s) (popDispatch_armed_mono s t2 h)
    · exact h

theorem processQueueAux_dispatched_mono (fuel : Nat) (s : PoolState) (t2 : Nat)
    (h : (s.task t2).dispatchedEver = true) :
    ((processQueueAux fuel s).task t2).dispatchedEver = true := by
  induction fuel generalizing s with
  | zero => exact h
  | succ fuel ih =>
    rw [processQueueAux]
    split
    · exact ih (popDispatch s) (popDispatch_dispatched_mono s t2 h)
    · exact h

theorem processQueueAux_avail_subset (fuel : Nat) (s : PoolState) (x : Nat)
    (h : x ∈ (processQueueAux fuel s).availableWorkers) :
    x ∈ s.availableWorkers := by
  induction fuel generalizing s with
  | zero => exact h
  | succ fuel ih =>
    rw [processQueueAux] at h
    split at h
    · exact popDispatch_avail_subset s x (ih (popDispatch s) h)
    · exact h

theorem processQueueAux_track (fuel : Nat) {s : PoolState} (hI : Inv s) (x : Nat)
    (h : x ∈ s.availableWorkers ∨ mapLookup s.workerTasks x ≠ none) :
    x ∈ (processQueueAux fuel s).availableWorkers
    ∨ mapLookup (processQueueAux fuel s).workerTasks x ≠ none := by
  induction fuel generalizing s with
  | zero => exact h
  | succ fuel ih =>
    rw [processQueueAux]
    split
    · exact ih (popDispatch_inv hI) (popDispatch_track hI x h)
    · exact h

theorem processQueueAux_bound_persist (fuel : Nat) {s : PoolState} (hI : Inv s)
    (x tid0 : Nat) (h : mapLookup s.workerTasks x = some tid0) :
    mapLookup (processQueueAux fuel s).workerTasks x = some tid0 := by
  induction fuel generalizing s with
  | zero => exact h
  | succ fuel ih =>
    rw [processQueueAux]
    split
    · exact ih (popDispatch_inv hI) (popDispatch_bound_persist hI x tid0 h)
    · exact h

/-! ### Facts about bound workers and list filters -/

theorem bound_facts {s : PoolState} (hI : Inv s) {w tid : Nat}
    (hlk : mapLookup s.workerTasks w = some tid) :
    (w, tid) ∈ s.workerTasks ∧ w ∈ s.workers ∧ w ∉ s.availableWorkers
    ∧ tid < s.tasks.length ∧ tid ∉ s.taskQueue.toList
    ∧ (s.task tid).ttlArmed = false ∧ (s.task tid).cancelled = false
    ∧ (s.task tid).promise = .pending ∧ (s.task tid).dispatchedEver = true := by
  have hmem := mapLookup_some_mem hlk
  have hclean := hI.boundClean _ hmem
  refine ⟨hmem, hI.boundSub _ hmem, ?_, hI.boundTid _ hmem,
    hI.boundNotQueued _ hmem, hclean.1, hclean.2.1, hclean.2.2.1, hclean.2.2.2⟩
  intro hav
  rw [hI.availUnbound w hav] at hlk
  exact Option.noConfusion hlk

theorem bound_snd_ne {s : PoolState} (hI : Inv s) {w tid : Nat}
    (hmem : (w, tid) ∈ s.workerTasks) {p : Nat × Nat}
    (hp : p ∈ mapDelete s.workerTasks w) : p.2 ≠ tid := by
  rcases mem_mapDelete.mp hp with ⟨hpm, hpne⟩
  intro he
  have heq : p = (w, tid) :=
    List.inj_on_of_nodup_map hI.tidsNodup hpm hmem (by simpa using he)
  rw [heq] at hpne
  exact hpne rfl

theorem next_unbound {s : PoolState} (hI : Inv s) :
    mapLookup s.workerTasks s.nextWorkerId = none := by
  rw [mapLookup_eq_none_iff]
  intro p hp he
  have := hI.workersLt p.1 (hI.boundSub p hp)
  omega

theorem next_not_mem_workers {s : PoolState} (hI : Inv s) :
    s.nextWorkerId ∉ s.workers := fun hmem => by
  have := hI.workersLt _ hmem
  omega

theorem mem_filter_ne {l : List Nat} {x w : Nat} :
    x ∈ l.filter (fun y => y != w) ↔ x ∈ l ∧ x ≠ w := by
  simp [List.mem_filter]

theorem filter_ne_of_not_mem {l : List Nat} {w : Nat} (h : w ∉ l) :
    l.filter (fun y => y != w) = l := by
  apply List.filter_eq_self.mpr
  intro x hx
  simp
  intro he
  exact h (he ▸ hx)

theorem length_filter_ne_of_mem {l : List Nat} {w : Nat} (hmem : w ∈ l)
    (hnodup : l.Nodup) : (l.filter (fun y => y != w)).length + 1 = l.length := by
  induction l with
  | nil => simp at hmem
  | cons a rest ih =>
    have hpair := List.nodup_cons.mp hnodup
    rcases List.mem_cons.mp hmem with rfl | hmem2
    · have hrest : rest.filter (fun y => y != w) = rest :=
        filter_ne_of_not_mem hpair.1
      simp [List.filter_cons, hrest]
    · have ha : a ≠ w := fun he => hpair.1 (he ▸ hmem2)
      have : (a != w) = true := by simp [ha]
      simp only [List.filter_cons, this, if_true, List.length_cons]
      have := ih hmem2 hpair.2
      omega

/-! ### Task-append lemmas for admission -/

theorem getD_append_lt (l : List TaskRecord) (tr : TaskRecord) (t : Nat)
    (h : t < l.length) : (l ++ [tr]).getD t defaultTask = l.getD t defaultTask := by
  rw [List.getD_eq_getElem?_getD, List.getD_eq_getElem?_getD,
    List.getElem?_append_left h]

theorem getD_append_self (l : List TaskRecord) (tr : TaskRecord) :
    (l ++ [tr]).getD l.length defaultTask = tr := by
  rw [List.getD_eq_getElem?_getD, List.getElem?_concat_length]
  rfl

theorem getD_append_gt (l : List TaskRecord) (tr : TaskRecord) (t : Nat)
    (h : l.length + 1 ≤ t) : (l ++ [tr]).getD t defaultTask = defaultTask := by
  rw [List.getD_eq_getElem?_getD, List.getElem?_eq_none (by simp; omega)]
  rfl

theorem admitTask_task_lt (s : PoolState) (tr : TaskRecord) (t : Nat)
    (h : t < s.tasks.length) : (admitTask s tr).task t = s.task t :=
  getD_append_lt s.tasks tr t h

theorem admitTask_task_self (s : PoolState) (tr : TaskRecord) :
    (admitTask s tr).task s.tasks.length = tr :=
  getD_append_self s.tasks tr

theorem admitTask_task_gt (s : PoolState) (tr : TaskRecord) (t : Nat)
    (h : s.tasks.length + 1 ≤ t) : (admitTask s tr).task t = defaultTask :=
  getD_append_gt s.tasks tr t h

theorem admitTask_toList (s : PoolState) (tr : TaskRecord) :
    (admitTask s tr).taskQueue.toList = s.taskQueue.toList ++ [s.tasks.length] :=
  Queue.toList_enqueue s.taskQueue s.tasks.length

theorem admitTask_tasks_length (s : PoolState) (tr : TaskRecord) :
    (admitTask s tr).tasks.length = s.tasks.length + 1 := by
  simp [admitTask]

/-! ### Invariant preservation by each event -/

theorem admitTask_inv {s : PoolState} (hI : Inv s) (tr : TaskRecord)
    (hp : tr.promise = .pending) (hc : tr.cancelled = false)
    (hf : tr.dispatchedEver = false) : Inv (admitTask s tr) := by
  set len := s.tasks.length with hlen
  have hqlt : ∀ t ∈ s.taskQueue.toList, t < len := hI.queueTid
  exact {
    workersNodup := hI.workersNodup
    availNodup := hI.availNodup
    availSub := hI.availSub
    boundSub := hI.boundSub
    keysNodup := hI.keysNodup
    tidsNodup := hI.tidsNodup
    availUnbound := hI.availUnbound
    workerCover := hI.workerCover
    sizeEq := hI.sizeEq
    workersLt := hI.workersLt
    boundTid := by
      intro p hp2
      rw [admitTask_tasks_length]
      have := hI.boundTid p hp2
      omega
    boundClean := by
      intro p hp2
      rw [admitTask_task_lt s tr p.2 (hI.boundTid p hp2)]
      exact hI.boundClean p hp2
    boundNotQueued := by
      intro p hp2 ht
      rw [admitTask_toList] at ht
      rcases List.mem_append.mp ht with h1 | h2
      · exact hI.boundNotQueued p hp2 h1
      · have := hI.boundTid p hp2
        simp at h2
        omega
    queueTid := by
      intro t ht
      rw [admitTask_toList] at ht
      rw [admitTask_tasks_length]
      rcases List.mem_append.mp ht with h1 | h2
      · have := hqlt t h1
        omega
      · simp at h2
        omega
    queueNodup := by
      rw [admitTask_toList]
      apply List.Nodup.append hI.queueNodup (List.nodup_singleton len)
      intro t h1 h2
      simp at h2
      rw [h2] at h1
      exact absurd (hqlt len h1) (by omega)
    queueFresh := by
      intro t ht
      rw [admitTask_toList] at ht
      rcases List.mem_append.mp ht with h1 | h2
      · rw [admitTask_task_lt s tr t (hqlt t h1)]
        exact hI.queueFresh t h1
      · simp at h2
        subst h2
        rw [admitTask_task_self]
        exact hf
    queuePending := by
      intro t ht
      rw [admitTask_toList] at ht
      rcases List.mem_append.mp ht with h1 | h2
      · rw [admitTask_task_lt s tr t (hqlt t h1)]
        exact hI.queuePending t h1
      · simp at h2
        subst h2
        rw [admitTask_task_self]
        intro
        exact hp
    cancelledRejected := by
      intro t hcanc
      rcases Nat.lt_trichotomy t len with hlt | rfl | hgt
      · rw [admitTask_task_lt s tr t hlt] at hcanc ⊢
        exact hI.cancelledRejected t hcanc
      · rw [admitTask_task_self] at hcanc
        rw [hc] at hcanc
        exact absurd hcanc (by simp)
      · rw [admitTask_task_gt s tr t hgt] at hcanc
        exact absurd hcanc (by
          rw [show defaultTask.cancelled = false from rfl]; simp)
    armedQueued := by
      intro t hat
      rw [admitTask_toList]
      rcases Nat.lt_trichotomy t len with hlt | rfl | hgt
      · rw [admitTask_task_lt s tr t hlt] at hat
        exact List.mem_append.mpr (Or.inl (hI.armedQueued t hat))
      · exact List.mem_append.mpr (Or.inr (by simp))
      · rw [admitTask_task_gt s tr t hgt] at hat
        exact absurd hat (by
          rw [show defaultTask.ttlArmed = false from rfl]; simp)
    pendingFreshQueued := by
      intro t hlt2 hpend hfresh
      rw [admitTask_toList]
      rw [admitTask_tasks_length] at hlt2
      rcases Nat.lt_trichotomy t len with hlt | rfl | hgt
      · rw [admitTask_task_lt s tr t hlt] at hpend hfresh
        exact List.mem_append.mpr
          (Or.inl (hI.pendingFreshQueued t hlt hpend hfresh))
      · exact List.mem_append.mpr (Or.inr (by simp))
      · omega }

theorem execute_inv {s : PoolState} (hI : Inv s) (fn : Nat) (args : List Value)
    (ttl : Option Nat) : Inv (execute s fn args ttl) := by
  rw [execute]
  exact processQueueAux_inv _ (admitTask_inv hI _ rfl rfl rfl)

theorem timerFire_inv {s : PoolState} (hI : Inv s) (tid : Nat) :
    Inv (timerFire s tid) := by
  rw [timerFire]
  split
  · next hat =>
    have hmemq : tid ∈ s.taskQueue.toList := hI.armedQueued tid hat
    have hlt : tid < s.tasks.length := hI.queueTid tid hmemq
    have hcanc : (s.task tid).cancelled = false := by
      by_cases hcc : (s.task tid).cancelled = true
      · rw [(hI.cancelledRejected tid hcc).2] at hat
        exact absurd hat (by simp)
      · simpa using hcc
    have hpend : (s.task tid).promise = .pending :=
      hI.queuePending tid hmemq hcanc
    have hbound_ne : ∀ p ∈ s.workerTasks, p.2 ≠ tid := by
      intro p hp he
      exact hI.boundNotQueued p hp (he ▸ hmemq)
    have hTself : (updateTask s tid ttlReject).task tid = ttlReject (s.task tid) :=
      task_updateTask_self s tid _ hlt
    have hTne : ∀ t2, t2 ≠ tid →
        (updateTask s tid ttlReject).task t2 = s.task t2 :=
      fun t2 h2 => task_updateTask_ne s tid t2 _ h2
    exact {
      workersNodup := hI.workersNodup
      availNodup := hI.availNodup
      availSub := hI.availSub
      boundSub := hI.boundSub
      keysNodup := hI.keysNodup
      tidsNodup := hI.tidsNodup
      availUnbound := hI.availUnbound
      workerCover := hI.workerCover
      sizeEq := hI.sizeEq
      workersLt := hI.workersLt
      boundTid := by
        intro p hp
        show p.2 < (updateTask s tid ttlReject).tasks.length
        rw [tasks_length_updateTask]
        exact hI.boundTid p hp
      boundClean := by
        intro p hp
        show ((updateTask s tid ttlReject).task p.2).ttlArmed = false
          ∧ ((updateTask s tid ttlReject).task p.2).cancelled = false
          ∧ ((updateTask s tid ttlReject).task p.2).promise = .pending
          ∧ ((updateTask s tid ttlReject).task p.2).dispatchedEver = true
        rw [hTne p.2 (hbound_ne p hp)]
        exact hI.boundClean p hp
      boundNotQueued := hI.boundNotQueued
      queueTid := by
        intro t ht
        show t < (updateTask s tid ttlReject).tasks.length
        rw [tasks_length_updateTask]
        exact hI.queueTid t ht
      queueNodup := hI.queueNodup
      queueFresh := by
        intro t ht
        show ((updateTask s tid ttlReject).task t).dispatchedEver = false
        by_cases hne : t = tid
        · subst hne
          rw [hTself]
          show (s.task t).dispatchedEver = false
          exact hI.queueFresh t ht
        · rw [hTne t hne]
          exact hI.queueFresh t ht
      queuePending := by
        intro t ht
        by_cases hne : t = tid
        · subst hne
          intro hcc
          have hcc2 : ((updateTask s t ttlReject).task t).cancelled = false := hcc
          rw [hTself] at hcc2
          have hcc3 : (true : Bool) = false := hcc2
          exact absurd hcc3 (by simp)
        · show ((updateTask s tid ttlReject).task t).cancelled = false →
            ((updateTask s tid ttlReject).task t).promise = .pending
          rw [hTne t hne]
          exact hI.queuePending t ht
      cancelledRejected := by
        intro t hcc
        by_cases hne : t = tid
        · subst hne
          show ((updateTask s t ttlReject).task t).promise = .rejected .ttlExpired
            ∧ ((updateTask s t ttlReject).task t).ttlArmed = false
          rw [hTself]
          refine ⟨?_, rfl⟩
          show (s.task t).promise.rejectOnce .ttlExpired = .rejected .ttlExpired
          rw [hpend]
          rfl
        · have hcc2 : ((updateTask s tid ttlReject).task t).cancelled = true := hcc
          rw [hTne t hne] at hcc2
          show ((updateTask s tid ttlReject).task t).promise = .rejected .ttlExpired
            ∧ ((updateTask s tid ttlReject).task t).ttlArmed = false
          rw [hTne t hne]
          exact hI.cancelledRejected t hcc2
      armedQueued := by
        intro t hat2
        by_cases hne : t = tid
        · subst hne
          exact hmemq
        · have hat3 : ((updateTask s tid ttlReject).task t).ttlArmed = true := hat2
          rw [hTne t hne] at hat3
          exact hI.armedQueued t hat3
      pendingFreshQueued := by
        intro t hlt2 hpend2 hfresh2
        by_cases hne : t = tid
        · subst hne
          exact hmemq
        · have hlt3 : t < s.tasks.length := by
            have h4 : t < (updateTask s tid ttlReject).tasks.length := hlt2
            rwa [tasks_length_updateTask] at h4
          have hpend3 : ((updateTask s tid ttlReject).task t).promise = .pending :=
            hpend2
          have hfresh3 : ((updateTask s tid ttlReject).task t).dispatchedEver
              = false := hfresh2
          rw [hTne t hne] at hpend3 hfresh3
          exact hI.pendingFreshQueued t hlt3 hpend3 hfresh3 }
  · exact hI

theorem msgSettle_promise_ne_pending (m : WorkerMsg) (r : TaskRecord) :
    (msgSettle m r).promise ≠ .pending := by
  cases m with
  | success v => exact PromiseState.resolveOnce_ne_pending _ v
  | failure e => exact PromiseState.rejectOnce_ne_pending _ _

theorem workerMessage_inv {s : PoolState} (hI : Inv s) (w : Nat) (m : WorkerMsg) :
    Inv (workerMessage s w m) := by
  rw [workerMessage]
  cases hlk : mapLookup s.workerTasks w with
  | none => exact hI
  | some tid =>
    obtain ⟨hmem, hw_workers, hw_navail, htid_lt, htid_nq, _, hcanc, hpend, _⟩ :=
      bound_facts hI hlk
    apply processQueueAux_inv
    have hTself : (updateTask s tid (msgSettle m)).task tid
        = msgSettle m (s.task tid) := task_updateTask_self s tid _ htid_lt
    have hTne : ∀ t2, t2 ≠ tid →
        (updateTask s tid (msgSettle m)).task t2 = s.task t2 :=
      fun t2 h2 => task_updateTask_ne s tid t2 _ h2
    have hqne : ∀ t ∈ s.taskQueue.toList, t ≠ tid :=
      fun t ht he => htid_nq (he ▸ ht)
    exact {
      workersNodup := hI.workersNodup
      availNodup := List.nodup_cons.mpr ⟨hw_navail, hI.availNodup⟩
      availSub := by
        intro x hx
        rcases List.mem_cons.mp hx with rfl | h2
        · exact hw_workers
        · exact hI.availSub x h2
      boundSub := fun p hp => hI.boundSub p (mem_mapDelete.mp hp).1
      keysNodup := keys_mapDelete_nodup hI.keysNodup
      tidsNodup := List.Nodup.sublist
        ((mapDelete_sublist s.workerTasks w).map Prod.snd) hI.tidsNodup
      availUnbound := by
        intro x hx
        rcases List.mem_cons.mp hx with rfl | h2
        · exact mapLookup_mapDelete_self _ _
        · have hne : x ≠ w := fun he => hw_navail (he ▸ h2)
          show mapLookup (mapDelete s.workerTasks w) x = none
          rw [mapLookup_mapDelete_ne _ _ _ hne]
          exact hI.availUnbound x h2
      workerCover := by
        intro x hx
        by_cases hxw : x = w
        · subst hxw
          exact Or.inl (List.mem_cons_self _ _)
        · rcases hI.workerCover x hx with hav | hbd
          · exact Or.inl (List.mem_cons_of_mem _ hav)
          · right
            show mapLookup (mapDelete s.workerTasks w) x ≠ none
            rw [mapLookup_mapDelete_ne _ _ _ hxw]
            exact hbd
      sizeEq := by
        show s.workers.length = (w :: s.availableWorkers).length
          + (mapDelete s.workerTasks w).length
        have h1 := length_mapDelete_of_mem hmem hI.keysNodup
        have h2 := hI.sizeEq
        simp only [List.length_cons]
        omega
      workersLt := hI.workersLt
      boundTid := by
        intro p hp
        show p.2 < (updateTask s tid (msgSettle m)).tasks.length
        rw [tasks_length_updateTask]
        exact hI.boundTid p (mem_mapDelete.mp hp).1
      boundClean := by
        intro p hp
        have hp2 : p ∈ mapDelete s.workerTasks w := hp
        show ((updateTask s tid (msgSettle m)).task p.2).ttlArmed = false
          ∧ ((updateTask s tid (msgSettle m)).task p.2).cancelled = false
          ∧ ((updateTask s tid (msgSettle m)).task p.2).promise = .pending
          ∧ ((updateTask s tid (msgSettle m)).task p.2).dispatchedEver = true
        rw [hTne p.2 (bound_snd_ne hI hmem hp2)]
        exact hI.boundClean p (mem_mapDelete.mp hp2).1
      boundNotQueued := fun p hp =>
        hI.boundNotQueued p (mem_mapDelete.mp hp).1
      queueTid := by
        intro t ht
        show t < (updateTask s tid (msgSettle m)).tasks.length
        rw [tasks_length_updateTask]
        exact hI.queueTid t ht
      queueNodup := hI.queueNodup
      queueFresh := by
        intro t ht
        show ((updateTask s tid (msgSettle m)).task t).dispatchedEver = false
        rw [hTne t (hqne t ht)]
        exact hI.queueFresh t ht
      queuePending := by
        intro t ht
        show ((updateTask s tid (msgSettle m)).task t).cancelled = false →
          ((updateTask s tid (msgSettle m)).task t).promise = .pending
        rw [hTne t (hqne t ht)]
        exact hI.queuePending t ht
      cancelledRejected := by
        intro t hcc
        by_cases hne : t = tid
        · subst hne
          have hcc2 : ((updateTask s t (msgSettle m)).task t).cancelled = true :=
            hcc
          rw [hTself] at hcc2
          have hcc3 : (s.task t).cancelled = true := hcc2
          rw [hcanc] at hcc3
          exact absurd hcc3 (by simp)
        · have hcc2 : ((updateTask s tid (msgSettle m)).task t).cancelled
              = true := hcc
          rw [hTne t hne] at hcc2
          show ((updateTask s tid (msgSettle m)).task t).promise
              = .rejected .ttlExpired
            ∧ ((updateTask s tid (msgSettle m)).task t).ttlArmed = false
          rw [hTne t hne]
          exact hI.cancelledRejected t hcc2
      armedQueued := by
        intro t hat
        by_cases hne : t = tid
        · subst hne
          have hat2 : ((updateTask s t (msgSettle m)).task t).ttlArmed = true :=
            hat
          rw [hTself] at hat2
          have hat3 : (false : Bool) = true := hat2
          exact absurd hat3 (by simp)
        · have hat2 : ((updateTask s tid (msgSettle m)).task t).ttlArmed = true :=
            hat
          rw [hTne t hne] at hat2
          exact hI.armedQueued t hat2
      pendingFreshQueued := by
        intro t hlt hpend2 hfresh2
        by_cases hne : t = tid
        · subst hne
          have hpend3 : ((updateTask s t (msgSettle m)).task t).promise
              = .pending := hpend2
          rw [hTself] at hpend3
          exact absurd hpend3 (msgSettle_promise_ne_pending m _)
        · have hlt2 : t < s.tasks.length := by
            have h4 : t < (updateTask s tid (msgSettle m)).tasks.length := hlt
            rwa [tasks_length_updateTask] at h4
          have hpend3 : ((updateTask s tid (msgSettle m)).task t).promise
              = .pending := hpend2
          have hfresh3 : ((updateTask s tid (msgSettle m)).task t).dispatchedEver
              = false := hfresh2
          rw [hTne t hne] at hpend3 hfresh3
          exact hI.pendingFreshQueued t hlt2 hpend3 hfresh3 }

theorem workerCrash_inv {s : PoolState} (hI : Inv s) (w err : Nat) :
    Inv (workerCrash s w err) := by
  rw [workerCrash]
  split
  · next hw =>
    have hnw_workers : s.nextWorkerId ∉ s.workers := next_not_mem_workers hI
    have hw_lt : w < s.nextWorkerId := hI.workersLt w hw
    cases hlk : mapLookup s.workerTasks w with
    | none =>
      show Inv (processQueue
        { s with
            workers := s.nextWorkerId :: s.workers.filter (fun y => y != w),
            availableWorkers :=
              s.nextWorkerId :: s.availableWorkers.filter (fun y => y != w),
            nextWorkerId := s.nextWorkerId + 1 })
      apply processQueueAux_inv
      have hw_avail : w ∈ s.availableWorkers := by
        rcases hI.workerCover w hw with hav | hbd
        · exact hav
        · exact absurd hlk hbd
      have hkeys_ne : ∀ p ∈ s.workerTasks, p.1 ≠ w :=
        (mapLookup_eq_none_iff _ _).mp hlk
      exact {
        workersNodup := List.nodup_cons.mpr
          ⟨fun hmem => hnw_workers (mem_filter_ne.mp hmem).1,
           List.Nodup.filter _ hI.workersNodup⟩
        availNodup := List.nodup_cons.mpr
          ⟨fun hmem => hnw_workers
            (hI.availSub _ (mem_filter_ne.mp hmem).1),
           List.Nodup.filter _ hI.availNodup⟩
        availSub := by
          intro x hx
          rcases List.mem_cons.mp hx with rfl | h2
          · exact List.mem_cons_self _ _
          · rcases mem_filter_ne.mp h2 with ⟨h3, h4⟩
            exact List.mem_cons_of_mem _
              (mem_filter_ne.mpr ⟨hI.availSub x h3, h4⟩)
        boundSub := by
          intro p hp
          exact List.mem_cons_of_mem _
            (mem_filter_ne.mpr ⟨hI.boundSub p hp, hkeys_ne p hp⟩)
        keysNodup := hI.keysNodup
        tidsNodup := hI.tidsNodup
        availUnbound := by
          intro x hx
          rcases List.mem_cons.mp hx with rfl | h2
          · exact next_unbound hI
          · exact hI.availUnbound x (mem_filter_ne.mp h2).1
        workerCover := by
          intro x hx
          rcases List.mem_cons.mp hx with rfl | h2
          · exact Or.inl (List.mem_cons_self _ _)
          · rcases mem_filter_ne.mp h2 with ⟨h3, h4⟩
            rcases hI.workerCover x h3 with hav | hbd
            · exact Or.inl
                (List.mem_cons_of_mem _ (mem_filter_ne.mpr ⟨hav, h4⟩))
            · exact Or.inr hbd
        sizeEq := by
          show (s.nextWorkerId :: s.workers.filter (fun y => y != w)).length
            = (s.nextWorkerId :: s.availableWorkers.filter (fun y => y != w)).length
              + s.workerTasks.length
          have h1 := length_filter_ne_of_mem hw hI.workersNodup
          have h2 := length_filter_ne_of_mem hw_avail hI.availNodup
          have h3 := hI.sizeEq
          simp only [List.length_cons]
          omega
        workersLt := by
          intro x hx
          show x < s.nextWorkerId + 1
          rcases List.mem_cons.mp hx with rfl | h2
          · omega
          · have := hI.workersLt x (mem_filter_ne.mp h2).1
            omega
        boundTid := hI.boundTid
        boundClean := hI.boundClean
        boundNotQueued := hI.boundNotQueued
        queueTid := hI.queueTid
        queueNodup := hI.queueNodup
        queueFresh := hI.queueFresh
        queuePending := hI.queuePending
        cancelledRejected := hI.cancelledRejected
        armedQueued := hI.armedQueued
        pendingFreshQueued := hI.pendingFreshQueued }
    | some tid =>
      obtain ⟨hmem, hw_workers, hw_navail, htid_lt, htid_nq, _, hcanc, hpend, _⟩ :=
        bound_facts hI hlk
      show Inv (processQueue
        { (updateTask s tid (crashReject err)) with
            workers := s.nextWorkerId :: s.workers.filter (fun y => y != w),
            availableWorkers :=
              s.nextWorkerId :: s.availableWorkers.filter (fun y => y != w),
            workerTasks := mapDelete s.workerTasks w,
            nextWorkerId := s.nextWorkerId + 1 })
      apply processQueueAux_inv
      have hTself : (updateTask s tid (crashReject err)).task tid
          = crashReject err (s.task tid) := task_updateTask_self s tid _ htid_lt
      have hTne : ∀ t2, t2 ≠ tid →
          (updateTask s tid (crashReject err)).task t2 = s.task t2 :=
        fun t2 h2 => task_updateTask_ne s tid t2 _ h2
      have hqne : ∀ t ∈ s.taskQueue.toList, t ≠ tid :=
        fun t ht he => htid_nq (he ▸ ht)
      exact {
        workersNodup := List.nodup_cons.mpr
          ⟨fun hmem2 => hnw_workers (mem_filter_ne.mp hmem2).1,
           List.Nodup.filter _ hI.workersNodup⟩
        availNodup := List.nodup_cons.mpr
          ⟨fun hmem2 => hnw_workers
            (hI.availSub _ (mem_filter_ne.mp hmem2).1),
           List.Nodup.filter _ hI.availNodup⟩
        availSub := by
          intro x hx
          rcases List.mem_cons.mp hx with rfl | h2
          · exact List.mem_cons_self _ _
          · rcases mem_filter_ne.mp h2 with ⟨h3, h4⟩
            exact List.mem_cons_of_mem _
              (mem_filter_ne.mpr ⟨hI.availSub x h3, h4⟩)
        boundSub := by
          intro p hp
          rcases mem_mapDelete.mp hp with ⟨hpm, hpne⟩
          exact List.mem_cons_of_mem _
            (mem_filter_ne.mpr ⟨hI.boundSub p hpm, hpne⟩)
        keysNodup := keys_mapDelete_nodup hI.keysNodup
        tidsNodup := List.Nodup.sublist
          ((mapDelete_sublist s.workerTasks w).map Prod.snd) hI.tidsNodup
        availUnbound := by
          intro x hx
          rcases List.mem_cons.mp hx with rfl | h2
          · show mapLookup (mapDelete s.workerTasks w) s.nextWorkerId = none
            rw [mapLookup_mapDelete_ne _ _ _ (by omega : s.nextWorkerId ≠ w)]
            exact next_unbound hI
          · rcases mem_filter_ne.mp h2 with ⟨h3, h4⟩
            show mapLookup (mapDelete s.workerTasks w) x = none
            rw [mapLookup_mapDelete_ne _ _ _ h4]
            exact hI.availUnbound x h3
        workerCover := by
          intro x hx
          rcases List.mem_cons.mp hx with rfl | h2
          · exact Or.inl (List.mem_cons_self _ _)
          · rcases mem_filter_ne.mp h2 with ⟨h3, h4⟩
            rcases hI.workerCover x h3 with hav | hbd
            · exact Or.inl
                (List.mem_cons_of_mem _ (mem_filter_ne.mpr ⟨hav, h4⟩))
            · right
              show mapLookup (mapDelete s.workerTasks w) x ≠ none
              rw [mapLookup_mapDelete_ne _ _ _ h4]
              exact hbd
        sizeEq := by
          show (s.nextWorkerId :: s.workers.filter (fun y => y != w)).length
            = (s.nextWorkerId
                :: s.availableWorkers.filter (fun y => y != w)).length
              + (mapDelete s.workerTasks w).length
          have h1 := length_filter_ne_of_mem hw hI.workersNodup
          have h2 : s.availableWorkers.filter (fun y => y != w)
              = s.availableWorkers := filter_ne_of_not_mem hw_navail
          have h3 := length_mapDelete_of_mem hmem hI.keysNodup
          have h4 := hI.sizeEq
          rw [h2]
          simp only [List.length_cons]
          omega
        workersLt := by
          intro x hx
          show x < s.nextWorkerId + 1
          rcases List.mem_cons.mp hx with rfl | h2
          · omega
          · have := hI.workersLt x (mem_filter_ne.mp h2).1
            omega
        boundTid := by
          intro p hp
          show p.2 < (updateTask s tid (crashReject err)).tasks.length
          rw [tasks_length_updateTask]
          exact hI.boundTid p (mem_mapDelete.mp hp).1
        boundClean := by
          intro p hp
          have hp2 : p ∈ mapDelete s.workerTasks w := hp
          show ((updateTask s tid (crashReject err)).task p.2).ttlArmed = false
            ∧ ((updateTask s tid (crashReject err)).task p.2).cancelled = false
            ∧ ((updateTask s tid (crashReject err)).task p.2).promise = .pending
            ∧ ((updateTask s tid (crashReject err)).task p.2).dispatchedEver
                = true
          rw [hTne p.2 (bound_snd_ne hI hmem hp2)]
          exact hI.boundClean p (mem_mapDelete.mp hp2).1
        boundNotQueued := fun p hp =>
          hI.boundNotQueued p (mem_mapDelete.mp hp).1
        queueTid := by
          intro t ht
          show t < (updateTask s tid (crashReject err)).tasks.length
          rw [tasks_length_updateTask]
          exact hI.queueTid t ht
        queueNodup := hI.queueNodup
        queueFresh := by
          intro t ht
          show ((updateTask s tid (crashReject err)).task t).dispatchedEver
            = false
          rw [hTne t (hqne t ht)]
          exact hI.queueFresh t ht
        queuePending := by
          intro t ht
          show ((updateTask s tid (crashReject err)).task t).cancelled = false →
            ((updateTask s tid (crashReject err)).task t).promise = .pending
          rw [hTne t (hqne t ht)]
          exact hI.queuePending t ht
        cancelledRejected := by
          intro t hcc
          by_cases hne : t = tid
          · subst hne
            have hcc2 : ((updateTask s t (crashReject err)).task t).cancelled
                = true := hcc
            rw [hTself] at hcc2
            have hcc3 : (s.task t).cancelled = true := hcc2
            rw [hcanc] at hcc3
            exact absurd hcc3 (by simp)
          · have hcc2 : ((updateTask s tid (crashReject err)).task t).cancelled
                = true := hcc
            rw [hTne t hne] at hcc2
            show ((updateTask s tid (crashReject err)).task t).promise
                = .rejected .ttlExpired
              ∧ ((updateTask s tid (crashReject err)).task t).ttlArmed = false
            rw [hTne t hne]
            exact hI.cancelledRejected t hcc2
        armedQueued := by
          intro t hat
          by_cases hne : t = tid
          · subst hne
            have hat2 : ((updateTask s t (crashReject err)).task t).ttlArmed
                = true := hat
            rw [hTself] at hat2
            have hat3 : (false : Bool) = true := hat2
            exact absurd hat3 (by simp)
          · have hat2 : ((updateTask s tid (crashReject err)).task t).ttlArmed
                = true := hat
            rw [hTne t hne] at hat2
            exact hI.armedQueued t hat2
        pendingFreshQueued := by
          intro t hlt hpend2 hfresh2
          by_cases hne : t = tid
          · subst hne
            have hpend3 : ((updateTask s t (crashReject err)).task t).promise
                = .pending := hpend2
            rw [hTself] at hpend3
            exact absurd hpend3 (PromiseState.rejectOnce_ne_pending _ _)
          · have hlt2 : t < s.tasks.length := by
              have h4 : t < (updateTask s tid (crashReject err)).tasks.length :=
                hlt
              rwa [tasks_length_updateTask] at h4
            have hpend3 : ((updateTask s tid (crashReject err)).task t).promise
                = .pending := hpend2
            have hfresh3 :
                ((updateTask s tid (crashReject err)).task t).dispatchedEver
                = false := hfresh2
            rw [hTne t hne] at hpend3 hfresh3
            exact hI.pendingFreshQueued t hlt2 hpend3 hfresh3 }
  · exact hI

/-! ### Lemmas for terminate -/

theorem foldlClear_frames (m : List (Nat × Nat)) (s : PoolState) :
    (m.foldl (fun st p => updateTask st p.2 clearTtl) s).workers = s.workers
    ∧ (m.foldl (fun st p => updateTask st p.2 clearTtl) s).availableWorkers
        = s.availableWorkers
    ∧ (m.foldl (fun st p => updateTask st p.2 clearTtl) s).taskQueue = s.taskQueue
    ∧ (m.foldl (fun st p => updateTask st p.2 clearTtl) s).workerTasks
        = s.workerTasks
    ∧ (m.foldl (fun st p => updateTask st p.2 clearTtl) s).tasks.length
        = s.tasks.length := by
  induction m generalizing s with
  | nil => exact ⟨rfl, rfl, rfl, rfl, rfl⟩
  | cons p rest ih =>
    rw [List.foldl_cons]
    have h1 := ih (updateTask s p.2 clearTtl)
    refine ⟨h1.1, h1.2.1, h1.2.2.1, h1.2.2.2.1, ?_⟩
    rw [h1.2.2.2.2, tasks_length_updateTask]

theorem foldlClear_task_fields (m : List (Nat × Nat)) (s : PoolState) (t : Nat) :
    ((m.foldl (fun st p => updateTask st p.2 clearTtl) s).task t).promise
        = (s.task t).promise
    ∧ ((m.foldl (fun st p => updateTask st p.2 clearTtl) s).task t).cancelled
        = (s.task t).cancelled
    ∧ ((m.foldl (fun st p => updateTask st p.2 clearTtl) s).task t).dispatchedEver
        = (s.task t).dispatchedEver
    ∧ ((s.task t).ttlArmed = false →
        ((m.foldl (fun st p => updateTask st p.2 clearTtl) s).task t).ttlArmed
          = false) := by
  induction m generalizing s with
  | nil => exact ⟨rfl, rfl, rfl, fun h => h⟩
  | cons p rest ih =>
    rw [List.foldl_cons]
    have h1 := ih (updateTask s p.2 clearTtl)
    have hstep : ((updateTask s p.2 clearTtl).task t).promise
          = (s.task t).promise
        ∧ ((updateTask s p.2 clearTtl).task t).cancelled = (s.task t).cancelled
        ∧ ((updateTask s p.2 clearTtl).task t).dispatchedEver
          = (s.task t).dispatchedEver
        ∧ ((s.task t).ttlArmed = false →
            ((updateTask s p.2 clearTtl).task t).ttlArmed = false) := by
      by_cases hne : t = p.2
      · by_cases hlt : p.2 < s.tasks.length
        · rw [hne, task_updateTask_self s p.2 _ hlt]
          exact ⟨rfl, rfl, rfl, fun _ => rfl⟩
        · rw [updateTask_of_ge s p.2 _ (Nat.le_of_not_lt hlt)]
          exact ⟨rfl, rfl, rfl, fun h => h⟩
      · rw [task_updateTask_ne s p.2 t _ hne]
        exact ⟨rfl, rfl, rfl, fun h => h⟩
    exact ⟨h1.1.trans hstep.1, h1.2.1.trans hstep.2.1,
      h1.2.2.1.trans hstep.2.2.1,
      fun h => h1.2.2.2 (hstep.2.2.2 h)⟩

theorem foldlClear_task_unbound (m : List (Nat × Nat)) (s : PoolState) (t : Nat)
    (h : ∀ p ∈ m, p.2 ≠ t) :
    (m.foldl (fun st p => updateTask st p.2 clearTtl) s).task t = s.task t := by
  induction m generalizing s with
  | nil => rfl
  | cons p rest ih =>
    rw [List.foldl_cons]
    rw [ih (updateTask s p.2 clearTtl) (fun q hq => h q (List.mem_cons_of_mem _ hq))]
    exact task_updateTask_ne s p.2 t _
      (fun he => h p (List.mem_cons_self _ _) he.symm)

theorem drainRejectAux_spec (fuel : Nat) (s : PoolState)
    (hfuel : s.taskQueue.size ≤ fuel)
    (htids : ∀ t ∈ s.taskQueue.toList, t < s.tasks.length)
    (hnodup : s.taskQueue.toList.Nodup) :
    (drainRejectAux fuel s).workers = s.workers
    ∧ (drainRejectAux fuel s).availableWorkers = s.availableWorkers
    ∧ (drainRejectAux fuel s).workerTasks = s.workerTasks
    ∧ (drainRejectAux fuel s).tasks.length = s.tasks.length
    ∧ (∀ t ∈ s.taskQueue.toList,
        (drainRejectAux fuel s).task t = termReject (s.task t))
    ∧ (∀ t, t ∉ s.taskQueue.toList → (drainRejectAux fuel s).task t = s.task t) := by
  induction fuel generalizing s with
  | zero =>
    have hempty : s.taskQueue.toList = [] := by
      have := Queue.size_eq_length_toList s.taskQueue
      have hz : s.taskQueue.toList.length = 0 := by omega
      exact List.length_eq_zero.mp hz
    rw [drainRejectAux]
    exact ⟨rfl, rfl, rfl, rfl, fun t ht => absurd (hempty ▸ ht) (by simp),
      fun t _ => rfl⟩
  | succ fuel ih =>
    rw [drainRejectAux]
    split
    · next hemp =>
      have hempty : s.taskQueue.toList = [] := (Queue.isEmpty_iff _).mp hemp
      exact ⟨rfl, rfl, rfl, rfl, fun t ht => absurd (hempty ▸ ht) (by simp),
        fun t _ => rfl⟩
    · next hemp =>
      obtain ⟨tid, q2, hd, htoL⟩ :=
        Queue.dequeue_cases s.taskQueue (by simpa using hemp)
      rw [hd]
      have htid_mem : tid ∈ s.taskQueue.toList := by
        rw [htoL]; exact List.mem_cons_self _ _
      have htid_lt : tid < s.tasks.length := htids tid htid_mem
      have hnd := hnodup
      rw [htoL] at hnd
      have htid_nin : tid ∉ q2.toList := (List.nodup_cons.mp hnd).1
      have hq2_nodup : q2.toList.Nodup := (List.nodup_cons.mp hnd).2
      set s9 : PoolState :=
        updateTask { s with taskQueue := q2 } tid termReject with hs9
      have hs9_toList : s9.taskQueue.toList = q2.toList := rfl
      have hs9_len : s9.tasks.length = s.tasks.length :=
        tasks_length_updateTask _ tid termReject
      have hs9_size : s9.taskQueue.size ≤ fuel := by
        have h1 := Queue.size_eq_length_toList s.taskQueue
        have h2 := Queue.size_eq_length_toList q2
        rw [htoL] at h1
        simp at h1
        have : s9.taskQueue.size = q2.size := rfl
        omega
      have hs9_task_self : s9.task tid = termReject (s.task tid) :=
        task_updateTask_self { s with taskQueue := q2 } tid termReject htid_lt
      have hs9_task_ne : ∀ t, t ≠ tid → s9.task t = s.task t := fun t hne =>
        task_updateTask_ne { s with taskQueue := q2 } tid t termReject hne
      have hrec := ih s9
        (by rw [hs9_toList] at *; exact hs9_size)
        (by
          intro t ht
          rw [hs9_toList] at ht
          rw [hs9_len]
          exact htids t (by rw [htoL]; exact List.mem_cons_of_mem _ ht))
        (by rw [hs9_toList]; exact hq2_nodup)
      refine ⟨hrec.1, hrec.2.1, hrec.2.2.1, hrec.2.2.2.1.trans hs9_len, ?_, ?_⟩
      · intro t ht
        rw [htoL] at ht
        rcases List.mem_cons.mp ht with rfl | hmem2
        · rw [hrec.2.2.2.2.2 t (by rw [hs9_toList]; exact htid_nin)]
          exact hs9_task_self
        · have hne : t ≠ tid := fun he => htid_nin (he ▸ hmem2)
          rw [hrec.2.2.2.2.1 t (by rw [hs9_toList]; exact hmem2)]
          rw [hs9_task_ne t hne]
      · intro t ht
        rw [htoL] at ht
        simp only [List.mem_cons, not_or] at ht
        rw [hrec.2.2.2.2.2 t (by rw [hs9_toList]; exact ht.2)]
        exact hs9_task_ne t ht.1

/-- Complete description of terminate() on a well-formed state: every
collection is emptied, every TTL timer is cleared, still-queued tasks are
hit by termReject (rejecting exactly the pending ones), and every other
task record keeps all of its fields except the timer. -/
theorem terminate_spec {s : PoolState} (hI : Inv s) :
    (terminate s).workers = []
    ∧ (terminate s).availableWorkers = []
    ∧ (terminate s).workerTasks = []
    ∧ (terminate s).taskQueue = Queue.empty
    ∧ (terminate s).tasks.length = s.tasks.length
    ∧ (∀ t ∈ s.taskQueue.toList, (terminate s).task t = termReject (s.task t))
    ∧ (∀ t, t ∉ s.taskQueue.toList →
        ((terminate s).task t).promise = (s.task t).promise
        ∧ ((terminate s).task t).cancelled = (s.task t).cancelled
        ∧ ((terminate s).task t).dispatchedEver = (s.task t).dispatchedEver)
    ∧ (∀ t, ((terminate s).task t).ttlArmed = false) := by
  rw [terminate]
  set s1 : PoolState :=
    s.workerTasks.foldl (fun st p => updateTask st p.2 clearTtl) s with hs1
  have hfr := foldlClear_frames s.workerTasks s
  rw [← hs1] at hfr
  have hfields := fun t => foldlClear_task_fields s.workerTasks s t
  have hunbound := fun t h => foldlClear_task_unbound s.workerTasks s t h
  rw [← hs1] at hfields hunbound
  have hq1 : s1.taskQueue = s.taskQueue := hfr.2.2.1
  have hlen1 : s1.tasks.length = s.tasks.length := hfr.2.2.2.2
  have hdr := drainRejectAux_spec s1.taskQueue.size s1 (Nat.le_refl _)
    (by
      intro t ht
      rw [hq1] at ht
      rw [hlen1]
      exact hI.queueTid t ht)
    (by rw [hq1]; exact hI.queueNodup)
  set s2 : PoolState := drainRejectAux s1.taskQueue.size s1 with hs2
  have hqq : ∀ t ∈ s.taskQueue.toList, s2.task t = termReject (s1.task t) := by
    intro t ht
    exact hdr.2.2.2.2.1 t (by rw [hq1]; exact ht)
  have hqn : ∀ t, t ∉ s.taskQueue.toList → s2.task t = s1.task t := by
    intro t ht
    exact hdr.2.2.2.2.2 t (by rw [hq1]; exact ht)
  have hqueued_unchanged : ∀ t ∈ s.taskQueue.toList, s1.task t = s.task t := by
    intro t ht
    exact hunbound t (fun p hp he => hI.boundNotQueued p hp (he ▸ ht))
  refine ⟨rfl, rfl, rfl, rfl, hdr.2.2.2.1.trans hlen1, ?_, ?_, ?_⟩
  · intro t ht
    show s2.task t = termReject (s.task t)
    rw [hqq t ht, hqueued_unchanged t ht]
  · intro t ht
    show (s2.task t).promise = (s.task t).promise
      ∧ (s2.task t).cancelled = (s.task t).cancelled
      ∧ (s2.task t).dispatchedEver = (s.task t).dispatchedEver
    rw [hqn t ht]
    exact ⟨(hfields t).1, (hfields t).2.1, (hfields t).2.2.1⟩
  · intro t
    show (s2.task t).ttlArmed = false
    by_cases ht : t ∈ s.taskQueue.toList
    · rw [hqq t ht]
      rfl
    · rw [hqn t ht]
      apply (hfields t).2.2.2
      by_cases hat : (s.task t).ttlArmed = true
      · exact absurd (hI.armedQueued t hat) ht
      · simpa using hat

theorem terminate_inv {s : PoolState} (hI : Inv s) : Inv (terminate s) := by
  obtain ⟨hw, ha, hm, hq, hlen, hqq, hqn, harm⟩ := terminate_spec hI
  have hqempty : (terminate s).taskQueue.toList = [] := by
    rw [hq]; rfl
  refine {
    workersNodup := by rw [hw]; exact List.nodup_nil
    availNodup := by rw [ha]; exact List.nodup_nil
    availSub := by rw [ha]; intro w hw2; simp at hw2
    boundSub := by rw [hm]; intro p hp; simp at hp
    keysNodup := by rw [hm]; exact List.nodup_nil
    tidsNodup := by rw [hm]; exact List.nodup_nil
    availUnbound := by rw [ha]; intro w hw2; simp at hw2
    workerCover := by rw [hw]; intro w hw2; simp at hw2
    sizeEq := by rw [hw, ha, hm]; rfl
    workersLt := by rw [hw]; intro w hw2; simp at hw2
    boundTid := by rw [hm]; intro p hp; simp at hp
    boundClean := by rw [hm]; intro p hp; simp at hp
    boundNotQueued := by rw [hm]; intro p hp; simp at hp
    queueTid := by rw [hqempty]; intro t ht; simp at ht
    queueNodup := by rw [hqempty]; exact List.nodup_nil
    queueFresh := by rw [hqempty]; intro t ht; simp at ht
    queuePending := by rw [hqempty]; intro t ht; simp at ht
    cancelledRejected := ?_
    armedQueued := by
      intro t hat
      rw [harm t] at hat
      exact absurd hat (by simp)
    pendingFreshQueued := ?_ }
  · intro t hcanc
    refine ⟨?_, harm t⟩
    by_cases ht : t ∈ s.taskQueue.toList
    · have h2 := hqq t ht
      have hcanc2 : (s.task t).cancelled = true := by
        have h3 : ((terminate s).task t).cancelled = (s.task t).cancelled := by
          rw [h2]; rfl
        rw [← h3]; exact hcanc
      have h4 := (hI.cancelledRejected t hcanc2).1
      rw [h2]
      show (s.task t).promise.rejectOnce .poolTerminated = .rejected .ttlExpired
      rw [h4]
      rfl
    · have h2 := hqn t ht
      have hcanc2 : (s.task t).cancelled = true := by rw [← h2.2.1]; exact hcanc
      have h4 := (hI.cancelledRejected t hcanc2).1
      rw [h2.1, h4]
  · intro t hlt hpend hfresh
    exfalso
    by_cases ht : t ∈ s.taskQueue.toList
    · have h2 := hqq t ht
      have hpend2 : ((terminate s).task t).promise
          = (s.task t).promise.rejectOnce .poolTerminated := by rw [h2]; rfl
      rw [hpend2] at hpend
      exact PromiseState.rejectOnce_ne_pending _ _ hpend
    · have h2 := hqn t ht
      have hlt2 : t < s.tasks.length := by rw [← hlen]; exact hlt
      have hpend2 : (s.task t).promise = .pending := by rw [← h2.1]; exact hpend
      have hfresh2 : (s.task t).dispatchedEver = false := by
        rw [← h2.2.2]; exact hfresh
      exact ht (hI.pendingFreshQueued t hlt2 hpend2 hfresh2)

theorem step_inv {s : PoolState} (hI : Inv s) (e : PoolEvent) :
    Inv (step s e) := by
  cases e with
  | exec fn args ttl => exact execute_inv hI fn args ttl
  | timer tid => exact timerFire_inv hI tid
  | msg w m => exact workerMessage_inv hI w m
  | crash w err => exact workerCrash_inv hI w err
  | halt => exact terminate_inv hI

theorem reachable_inv {size : Nat} {dttl : Option Nat} {s : PoolState}
    (h : Reachable size dttl s) : Inv s := by
  induction h with
  | init => exact inv_mkPool size dttl
  | step h e ih => exact step_inv ih e

/-! ### processQueue wrappers and per-event persistence -/

theorem processQueue_inv {s : PoolState} (hI : Inv s) : Inv (processQueue s) :=
  processQueueAux_inv _ hI

theorem processQueue_task_promise (s : PoolState) (t : Nat) :
    ((processQueue s).task t).promise = (s.task t).promise :=
  processQueueAux_task_promise _ s t

theorem processQueue_task_cancelled (s : PoolState) (t : Nat) :
    ((processQueue s).task t).cancelled = (s.task t).cancelled :=
  processQueueAux_task_cancelled _ s t

theorem processQueue_armed_mono (s : PoolState) (t : Nat)
    (h : (s.task t).ttlArmed = false) :
    ((processQueue s).task t).ttlArmed = false :=
  processQueueAux_armed_mono _ s t h

theorem processQueue_of_avail_nil {s : PoolState}
    (h : s.availableWorkers = []) : processQueue s = s := by
  rw [processQueue]
  cases hf : s.taskQueue.size with
  | zero => rfl
  | succ n =>
    rw [processQueueAux]
    have : s.availableWorkers.isEmpty = true := by rw [h]; rfl
    rw [this]
    simp

theorem armed_facts {s : PoolState} (hI : Inv s) {tid : Nat}
    (hat : (s.task tid).ttlArmed = true) :
    tid ∈ s.taskQueue.toList ∧ tid < s.tasks.length
    ∧ (s.task tid).cancelled = false ∧ (s.task tid).promise = .pending := by
  have hmemq := hI.armedQueued tid hat
  have hlt := hI.queueTid tid hmemq
  have hcanc : (s.task tid).cancelled = false := by
    by_cases hcc : (s.task tid).cancelled = true
    · rw [(hI.cancelledRejected tid hcc).2] at hat
      exact absurd hat (by simp)
    · simpa using hcc
  exact ⟨hmemq, hlt, hcanc, hI.queuePending tid hmemq hcanc⟩

theorem step_settled_persist {s : PoolState} (hI : Inv s) (e : PoolEvent)
    (t : Nat) (hset : (s.task t).promise ≠ .pending) :
    ((step s e).task t).promise = (s.task t).promise := by
  have hlt : t < s.tasks.length := by
    by_contra hge
    rw [task_of_ge s t (Nat.le_of_not_lt hge)] at hset
    exact hset rfl
  cases e with
  | exec fn args ttl =>
    show ((execute s fn args ttl).task t).promise = _
    rw [execute, processQueue_task_promise, admitTask_task_lt s _ t hlt]
  | timer tid =>
    show ((timerFire s tid).task t).promise = _
    rw [timerFire]
    split
    · by_cases hlt2 : tid < s.tasks.length
      · by_cases hne : t = tid
        · rw [hne, task_updateTask_self s tid _ hlt2]
          show (s.task tid).promise.rejectOnce .ttlExpired = _
          exact PromiseState.rejectOnce_of_settled _ _ (hne ▸ hset)
        · rw [task_updateTask_ne s tid t _ hne]
      · rw [updateTask_of_ge s tid _ (Nat.le_of_not_lt hlt2)]
    · rfl
  | msg w m =>
    show ((workerMessage s w m).task t).promise = _
    rw [workerMessage]
    cases hlk : mapLookup s.workerTasks w with
    | none => rfl
    | some tid =>
      obtain ⟨_, _, _, htid_lt, _, _, _, hpend, _⟩ := bound_facts hI hlk
      rw [processQueue_task_promise]
      show ((updateTask s tid (msgSettle m)).task t).promise = _
      by_cases hne : t = tid
      · rw [hne] at hset
        exact absurd hpend hset
      · rw [task_updateTask_ne s tid t _ hne]
  | crash w err =>
    show ((workerCrash s w err).task t).promise = _
    rw [workerCrash]
    split
    · cases hlk : mapLookup s.workerTasks w with
      | none =>
        rw [processQueue_task_promise]
        rfl
      | some tid =>
        obtain ⟨_, _, _, htid_lt, _, _, _, hpend, _⟩ := bound_facts hI hlk
        rw [processQueue_task_promise]
        show ((updateTask s tid (crashReject err)).task t).promise = _
        by_cases hne : t = tid
        · rw [hne] at hset
          exact absurd hpend hset
        · rw [task_updateTask_ne s tid t _ hne]
    · rfl
  | halt =>
    show ((terminate s).task t).promise = _
    obtain ⟨_, _, _, _, _, hqq, hqn, _⟩ := terminate_spec hI
    by_cases ht : t ∈ s.taskQueue.toList
    · rw [hqq t ht]
      show (s.task t).promise.rejectOnce .poolTerminated = _
      exact PromiseState.rejectOnce_of_settled _ _ hset
    · exact (hqn t ht).1

theorem step_cancelled_persist {s : PoolState} (hI : Inv s) (e : PoolEvent)
    (t : Nat) (hc : (s.task t).cancelled = true) :
    ((step s e).task t).cancelled = true := by
  have hlt : t < s.tasks.length := by
    by_contra hge
    rw [task_of_ge s t (Nat.le_of_not_lt hge)] at hc
    exact absurd hc (by rw [show defaultTask.cancelled = false from rfl]; simp)
  cases e with
  | exec fn args ttl =>
    show ((execute s fn args ttl).task t).cancelled = true
    rw [execute, processQueue_task_cancelled, admitTask_task_lt s _ t hlt]
    exact hc
  | timer tid =>
    show ((timerFire s tid).task t).cancelled = true
    rw [timerFire]
    split
    · by_cases hlt2 : tid < s.tasks.length
      · by_cases hne : t = tid
        · rw [hne, task_updateTask_self s tid _ hlt2]
          rfl
        · rw [task_updateTask_ne s tid t _ hne]
          exact hc
      · rw [updateTask_of_ge s tid _ (Nat.le_of_not_lt hlt2)]
        exact hc
    · exact hc
  | msg w m =>
    show ((workerMessage s w m).task t).cancelled = true
    rw [workerMessage]
    cases hlk : mapLookup s.workerTasks w with
    | none => exact hc
    | some tid =>
      obtain ⟨_, _, _, htid_lt, _, _, _, _, _⟩ := bound_facts hI hlk
      rw [processQueue_task_cancelled]
      show ((updateTask s tid (msgSettle m)).task t).cancelled = true
      by_cases hne : t = tid
      · rw [hne, task_updateTask_self s tid _ htid_lt]
        show (s.task tid).cancelled = true
        exact hne ▸ hc
      · rw [task_updateTask_ne s tid t _ hne]
        exact hc
  | crash w err =>
    show ((workerCrash s w err).task t).cancelled = true
    rw [workerCrash]
    split
    · cases hlk : mapLookup s.workerTasks w with
      | none =>
        rw [processQueue_task_cancelled]
        exact hc
      | some tid =>
        obtain ⟨_, _, _, htid_lt, _, _, _, _, _⟩ := bound_facts hI hlk
        rw [processQueue_task_cancelled]
        show ((updateTask s tid (crashReject err)).task t).cancelled = true
        by_cases hne : t = tid
        · rw [hne, task_updateTask_self s tid _ htid_lt]
          show (s.task tid).cancelled = true
          exact hne ▸ hc
        · rw [task_updateTask_ne s tid t _ hne]
          exact hc
    · exact hc
  | halt =>
    show ((terminate s).task t).cancelled = true
    obtain ⟨_, _, _, _, _, hqq, hqn, _⟩ := terminate_spec hI
    by_cases ht : t ∈ s.taskQueue.toList
    · rw [hqq t ht]
      exact hc
    · rw [(hqn t ht).2.1]
      exact hc

theorem inv_reachFrom {s t : PoolState} (hI : Inv s) (h : ReachFrom s t) :
    Inv t := by
  induction h with
  | refl => exact hI
  | tail h2 e ih => exact step_inv ih e

theorem reachFrom_settled_persist {s s2 : PoolState} (hI : Inv s)
    (h : ReachFrom s s2) (t : Nat) (hset : (s.task t).promise ≠ .pending) :
    (s2.task t).promise = (s.task t).promise := by
  induction h with
  | refl => rfl
  | tail h2 e ih =>
    rw [step_settled_persist (inv_reachFrom hI h2) e t (by rw [ih]; exact hset)]
    exact ih

theorem reachFrom_cancelled_persist {s s2 : PoolState} (hI : Inv s)
    (h : ReachFrom s s2) (t : Nat) (hc : (s.task t).cancelled = true) :
    (s2.task t).cancelled = true := by
  induction h with
  | refl => exact hc
  | tail h2 e ih => exact step_cancelled_persist (inv_reachFrom hI h2) e t ih

theorem cancelled_never_bound {s s2 : PoolState} (hI : Inv s)
    (h : ReachFrom s s2) (t : Nat) (hc : (s.task t).cancelled = true)
    (w : Nat) : mapLookup s2.workerTasks w ≠ some t := by
  intro hlk
  have hI2 := inv_reachFrom hI h
  have hmem := mapLookup_some_mem hlk
  have hclean := hI2.boundClean _ hmem
  have hc2 := reachFrom_cancelled_persist hI h t hc
  rw [hclean.2.1] at hc2
  exact absurd hc2 (by simp)

theorem settled_never_bound {s s2 : PoolState} (hI : Inv s)
    (h : ReachFrom s s2) (t : Nat) (hset : (s.task t).promise ≠ .pending)
    (w : Nat) : mapLookup s2.workerTasks w ≠ some t := by
  intro hlk
  have hI2 := inv_reachFrom hI h
  have hmem := mapLookup_some_mem hlk
  have hclean := hI2.boundClean _ hmem
  have hp2 := reachFrom_settled_persist hI h t hset
  rw [hclean.2.2.1] at hp2
  exact hset hp2.symm

/-- C1: TTL bounds queueing, not execution, in the pool.  (a) At admission
the TTL timer of the new task is armed exactly when a TTL (explicit or
pool-default, with 0/undefined falsy) applies AND no worker is available
at that moment.  (b) In every reachable state a dispatched (bound) task
has its timer disarmed — the timer is cleared at the instant of dispatch
and never re-armed.  (c) When an armed timer fires, the task is marked
cancelled and its promise is rejected with the TTL-expiry error, and (c2)
a cancelled task is never subsequently dispatched to any worker; (c3)
processQueue returns the worker popped for a skipped cancelled task: the
count of available-or-bound workers is preserved.  (d) The TTL timer of a
dispatched task cannot fire (firing is a no-op), so (e) a task dispatched
immediately whose body outlives its TTL still resolves on its worker's
success message. -/
theorem C1_pool_ttl_queueing_only :
    (∀ (s : PoolState) (fn : Nat) (args : List Value) (ttl : Option Nat),
      ((execute s fn args ttl).task s.tasks.length).ttlArmed
        = (ttlTruthy (resolveTTL ttl s.defaultTTL) && s.availableWorkers.isEmpty))
    ∧ (∀ (size : Nat) (dttl : Option Nat) (s : PoolState),
        Reachable size dttl s → ∀ p ∈ s.workerTasks,
        (s.task p.2).ttlArmed = false)
    ∧ (∀ (size : Nat) (dttl : Option Nat) (s : PoolState),
        Reachable size dttl s → ∀ tid,
        (s.task tid).ttlArmed = true →
        ((step s (.timer tid)).task tid).cancelled = true
        ∧ ((step s (.timer tid)).task tid).promise = .rejected .ttlExpired)
    ∧ (∀ (size : Nat) (dttl : Option Nat) (s : PoolState),
        Reachable size dttl s → ∀ tid,
        (s.task tid).cancelled = true → ∀ s2, ReachFrom s s2 → ∀ w,
        mapLookup s2.workerTasks w ≠ some tid)
    ∧ (∀ (size : Nat) (dttl : Option Nat) (s : PoolState),
        Reachable size dttl s →
        (processQueue s).availableWorkers.length
          + (processQueue s).workerTasks.length
          = s.availableWorkers.length + s.workerTasks.length)
    ∧ (∀ (size : Nat) (dttl : Option Nat) (s : PoolState),
        Reachable size dttl s → ∀ w tid,
        mapLookup s.workerTasks w = some tid → step s (.timer tid) = s)
    ∧ (∀ (size : Nat) (dttl : Option Nat) (s : PoolState),
        Reachable size dttl s → ∀ w tid v,
        mapLookup s.workerTasks w = some tid →
        ((step s (.msg w (.success v))).task tid).promise = .resolved v) := by
  refine ⟨?_, ?_, ?_, ?_, ?_, ?_, ?_⟩
  · intro s fn args ttl
    have hmk : (mkTask s fn args ttl).ttlArmed
        = (ttlTruthy (resolveTTL ttl s.defaultTTL)
            && s.availableWorkers.isEmpty) := rfl
    rcases ha : s.availableWorkers with _ | ⟨w, rest⟩
    · rw [execute, processQueue_of_avail_nil (show (admitTask s
        (mkTask s fn args ttl)).availableWorkers = [] from ha),
        admitTask_task_self, hmk, ha]
    · have h1 : ((admitTask s (mkTask s fn args ttl)).task
          s.tasks.length).ttlArmed = false := by
        rw [admitTask_task_self, hmk, ha]
        simp
      rw [execute, processQueue_armed_mono _ _ h1]
      simp
  · intro size dttl s hr p hp
    exact ((reachable_inv hr).boundClean p hp).1
  · intro size dttl s hr tid hat
    have hI := reachable_inv hr
    obtain ⟨hmemq, hlt, hcanc, hpend⟩ := armed_facts hI hat
    show ((timerFire s tid).task tid).cancelled = true
      ∧ ((timerFire s tid).task tid).promise = .rejected .ttlExpired
    rw [timerFire]
    split
    · rw [task_updateTask_self s tid _ hlt]
      refine ⟨rfl, ?_⟩
      show (s.task tid).promise.rejectOnce .ttlExpired = .rejected .ttlExpired
      rw [hpend]
      rfl
    · next hn => exact absurd hat hn
  · intro size dttl s hr tid hc s2 h2 w
    exact cancelled_never_bound (reachable_inv hr) h2 tid hc w
  · intro size dttl s hr
    have hI := reachable_inv hr
    have h2 := (processQueue_inv hI).sizeEq
    have h3 := (processQueueAux_frames s.taskQueue.size s).1
    have h4 := hI.sizeEq
    have h5 : (processQueue s).workers = s.workers := h3
    rw [h5] at h2
    omega
  · intro size dttl s hr w tid hlk
    have hI := reachable_inv hr
    obtain ⟨_, _, _, _, _, harm, _, _, _⟩ := bound_facts hI hlk
    show timerFire s tid = s
    rw [timerFire, harm]
    simp
  · intro size dttl s hr w tid v hlk
    have hI := reachable_inv hr
    obtain ⟨_, _, _, htid_lt, _, _, _, hpend, _⟩ := bound_facts hI hlk
    show ((workerMessage s w (.success v)).task tid).promise = .resolved v
    rw [workerMessage, hlk]
    show ((processQueue
      { (updateTask s tid (msgSettle (.success v))) with
        workerTasks := mapDelete s.workerTasks w,
        availableWorkers := w :: s.availableWorkers }).task tid).promise
      = .resolved v
    rw [processQueue_task_promise]
    show ((updateTask s tid (msgSettle (.success v))).task tid).promise
      = .resolved v
    rw [task_updateTask_self s tid _ htid_lt]
    show (s.task tid).promise.resolveOnce v = .resolved v
    rw [hpend]
    rfl

theorem C1_pool_ttl_queueing_only_witness :
    ((execute (mkPool 0 (some 5)) 7 [] none).task 0).ttlArmed = true
    ∧ ((step (step (mkPool 0 (some 5)) (.exec 7 [] none))
        (.timer 0)).task 0).cancelled = true
    ∧ ((step (step (mkPool 0 (some 5)) (.exec 7 [] none))
        (.timer 0)).task 0).promise = .rejected .ttlExpired := by
  have h := C1_pool_ttl_queueing_only
  refine ⟨?_, ?_, ?_⟩
  · exact (h.1 (mkPool 0 (some 5)) 7 [] none).trans (by decide)
  · exact (h.2.2.1 0 (some 5) (step (mkPool 0 (some 5)) (.exec 7 [] none))
      (Reachable.init.step (.exec 7 [] none)) 0 (by decide)).1
  · exact (h.2.2.1 0 (some 5) (step (mkPool 0 (some 5)) (.exec 7 [] none))
      (Reachable.init.step (.exec 7 [] none)) 0 (by decide)).2

theorem workerCrash_shape {s : PoolState} (hI : Inv s) {w : Nat}
    (hw : w ∈ s.workers) (err : Nat) :
    (workerCrash s w err).workers
      = s.nextWorkerId :: s.workers.filter (fun y => y != w)
    ∧ (∀ x ∈ (workerCrash s w err).availableWorkers,
        x = s.nextWorkerId ∨ (x ∈ s.availableWorkers ∧ x ≠ w))
    ∧ (∀ tid, mapLookup s.workerTasks w = some tid →
        ((workerCrash s w err).task tid).promise
          = .rejected (.workerCrash err)) := by
  rw [workerCrash, if_pos hw]
  cases hlk : mapLookup s.workerTasks w with
  | none =>
    refine ⟨?_, ?_, ?_⟩
    · show (processQueue
        { s with
            workers := s.nextWorkerId :: s.workers.filter (fun y => y != w),
            availableWorkers :=
              s.nextWorkerId :: s.availableWorkers.filter (fun y => y != w),
            nextWorkerId := s.nextWorkerId + 1 }).workers = _
      exact (processQueueAux_frames _ _).1
    · intro x hx
      have hx2 : x ∈ (s.nextWorkerId
          :: s.availableWorkers.filter (fun y => y != w)) :=
        processQueueAux_avail_subset _ _ x hx
      rcases List.mem_cons.mp hx2 with rfl | h2
      · exact Or.inl rfl
      · exact Or.inr (mem_filter_ne.mp h2)
    · intro tid hlk2
      exact Option.noConfusion hlk2
  | some tid0 =>
    obtain ⟨_, _, _, htid_lt, _, _, _, hpend, _⟩ := bound_facts hI hlk
    refine ⟨?_, ?_, ?_⟩
    · show (processQueue
        { (updateTask s tid0 (crashReject err)) with
            workers := s.nextWorkerId :: s.workers.filter (fun y => y != w),
            availableWorkers :=
              s.nextWorkerId :: s.availableWorkers.filter (fun y => y != w),
            workerTasks := mapDelete s.workerTasks w,
            nextWorkerId := s.nextWorkerId + 1 }).workers = _
      exact (processQueueAux_frames _ _).1
    · intro x hx
      have hx2 : x ∈ (s.nextWorkerId
          :: s.availableWorkers.filter (fun y => y != w)) :=
        processQueueAux_avail_subset _ _ x hx
      rcases List.mem_cons.mp hx2 with rfl | h2
      · exact Or.inl rfl
      · exact Or.inr (mem_filter_ne.mp h2)
    · intro tid hlk2
      have htid : tid = tid0 := (Option.some.inj hlk2).symm
      subst htid
      show ((processQueue
        { (updateTask s tid (crashReject err)) with
            workers := s.nextWorkerId :: s.workers.filter (fun y => y != w),
            availableWorkers :=
              s.nextWorkerId :: s.availableWorkers.filter (fun y => y != w),
            workerTasks := mapDelete s.workerTasks w,
            nextWorkerId := s.nextWorkerId + 1 }).task tid).promise = _
      rw [processQueue_task_promise]
      show ((updateTask s tid (crashReject err)).task tid).promise = _
      rw [task_updateTask_self s tid _ htid_lt]
      show (s.task tid).promise.rejectOnce (.workerCrash err) = _
      rw [hpend]
      rfl

/-- C2: after a worker-level crash of a live worker, the bound task (if
any) is rejected with the crash-specific error, the dead worker is removed
from both the all-workers and available-workers collections, a replacement
worker is synchronously created and registered (and is available or was
immediately handed a queued task by the re-run processQueue), totalWorkers
is unchanged, and the pool statistics still satisfy the availability
partition, so the pool remains able to execute new tasks. -/
theorem C2_crash_recovery :
    ∀ (size : Nat) (dttl : Option Nat) (s : PoolState), Reachable size dttl s →
    ∀ w err, w ∈ s.workers →
      (∀ tid, mapLookup s.workerTasks w = some tid →
        ((step s (.crash w err)).task tid).promise
          = .rejected (.workerCrash err))
      ∧ w ∉ (step s (.crash w err)).workers
      ∧ w ∉ (step s (.crash w err)).availableWorkers
      ∧ s.nextWorkerId ∈ (step s (.crash w err)).workers
      ∧ (getStats (step s (.crash w err))).totalWorkers
          = (getStats s).totalWorkers
      ∧ (s.nextWorkerId ∈ (step s (.crash w err)).availableWorkers
          ∨ mapLookup (step s (.crash w err)).workerTasks s.nextWorkerId ≠ none)
      ∧ (getStats (step s (.crash w err))).totalWorkers
          = (getStats (step s (.crash w err))).availableWorkers
            + (getStats (step s (.crash w err))).busyWorkers := by
  intro size dttl s hr w err hw
  have hI := reachable_inv hr
  obtain ⟨hworkers, havail, hbound⟩ := workerCrash_shape hI hw err
  have hI2 : Inv (step s (.crash w err)) := step_inv hI _
  have hw_lt : w < s.nextWorkerId := hI.workersLt w hw
  refine ⟨hbound, ?_, ?_, ?_, ?_, ?_, ?_⟩
  · show w ∉ (workerCrash s w err).workers
    rw [hworkers]
    intro hmem
    rcases List.mem_cons.mp hmem with heq | h2
    · omega
    · exact (mem_filter_ne.mp h2).2 rfl
  · show w ∉ (workerCrash s w err).availableWorkers
    intro hmem
    rcases havail w hmem with heq | h2
    · omega
    · exact h2.2 rfl
  · show s.nextWorkerId ∈ (workerCrash s w err).workers
    rw [hworkers]
    exact List.mem_cons_self _ _
  · show (workerCrash s w err).workers.length = s.workers.length
    rw [hworkers]
    rw [List.length_cons]
    exact length_filter_ne_of_mem hw hI.workersNodup
  · have hcov := hI2.workerCover s.nextWorkerId (by
      show s.nextWorkerId ∈ (workerCrash s w err).workers
      rw [hworkers]
      exact List.mem_cons_self _ _)
    exact hcov
  · have hsz := hI2.sizeEq
    show (step s (.crash w err)).workers.length
      = (step s (.crash w err)).availableWorkers.length
        + ((step s (.crash w err)).workers.length
          - (step s (.crash w err)).availableWorkers.length)
    omega

theorem C2_crash_recovery_witness :
    ((step (mkPool 1 none) (.crash 0 9)).task 0).promise
        = ((mkPool 1 none).task 0).promise
    ∧ 0 ∉ (step (mkPool 1 none) (.crash 0 9)).workers
    ∧ (getStats (step (mkPool 1 none) (.crash 0 9))).totalWorkers
        = (getStats (mkPool 1 none)).totalWorkers := by
  have h := C2_crash_recovery 1 none (mkPool 1 none) Reachable.init 0 9
    (by decide)
  exact ⟨by decide, h.2.1, h.2.2.2.2.1⟩

/-- A terminated pool stays dead: no event re-creates workers, re-fills
the available list or binds a task. -/
theorem dead_pool_stays_dead {s : PoolState}
    (h : s.workers = [] ∧ s.availableWorkers = [] ∧ s.workerTasks = [])
    (e : PoolEvent) :
    (step s e).workers = [] ∧ (step s e).availableWorkers = []
    ∧ (step s e).workerTasks = [] := by
  obtain ⟨hw, ha, hm⟩ := h
  cases e with
  | exec fn args ttl =>
    show (execute s fn args ttl).workers = []
      ∧ (execute s fn args ttl).availableWorkers = []
      ∧ (execute s fn args ttl).workerTasks = []
    rw [execute, processQueue_of_avail_nil
      (show (admitTask s (mkTask s fn args ttl)).availableWorkers = [] from ha)]
    exact ⟨hw, ha, hm⟩
  | timer tid =>
    show (timerFire s tid).workers = []
      ∧ (timerFire s tid).availableWorkers = []
      ∧ (timerFire s tid).workerTasks = []
    rw [timerFire]
    split
    · exact ⟨hw, ha, hm⟩
    · exact ⟨hw, ha, hm⟩
  | msg w m =>
    show (workerMessage s w m).workers = []
      ∧ (workerMessage s w m).availableWorkers = []
      ∧ (workerMessage s w m).workerTasks = []
    rw [workerMessage, hm]
    exact ⟨hw, ha, hm⟩
  | crash w err =>
    show (workerCrash s w err).workers = []
      ∧ (workerCrash s w err).availableWorkers = []
      ∧ (workerCrash s w err).workerTasks = []
    rw [workerCrash, if_neg (by rw [hw]; simp)]
    exact ⟨hw, ha, hm⟩
  | halt =>
    exact ⟨rfl, rfl, rfl⟩

/-- C3: terminate() clears every outstanding TTL timer (of dispatched and
of still-queued tasks alike), rejects every still-queued pending task with
the pool-terminated error, terminates and discards every worker so that
getStats reports all zeros, and no state reachable from the terminated
pool ever has a worker, an available worker or a bound task again — no
further dispatch is possible on this pool. -/
theorem C3_terminate_drains :
    ∀ (size : Nat) (dttl : Option Nat) (s : PoolState), Reachable size dttl s →
      (∀ t, ((terminate s).task t).ttlArmed = false)
      ∧ (∀ t ∈ s.taskQueue.toList, (s.task t).promise = .pending →
          ((terminate s).task t).promise = .rejected .poolTerminated)
      ∧ getStats (terminate s) = ⟨0, 0, 0, 0⟩
      ∧ (∀ s2, ReachFrom (terminate s) s2 →
          s2.workers = [] ∧ s2.availableWorkers = [] ∧ s2.workerTasks = []) := by
  intro size dttl s hr
  have hI := reachable_inv hr
  obtain ⟨hw, ha, hm, hq, hlen, hqq, hqn, harm⟩ := terminate_spec hI
  refine ⟨harm, ?_, ?_, ?_⟩
  · intro t ht hpend
    rw [hqq t ht]
    show (s.task t).promise.rejectOnce .poolTerminated = _
    rw [hpend]
    rfl
  · show (⟨(terminate s).workers.length, (terminate s).availableWorkers.length,
      (terminate s).workers.length - (terminate s).availableWorkers.length,
      (terminate s).taskQueue.size⟩ : Stats) = ⟨0, 0, 0, 0⟩
    rw [hw, ha, hq]
    rfl
  · intro s2 h2
    induction h2 with
    | refl => exact ⟨hw, ha, hm⟩
    | tail h3 e ih => exact dead_pool_stays_dead ih e

theorem C3_terminate_drains_witness :
    (((terminate (step (mkPool 0 (some 5)) (.exec 7 [] none))).task 0).ttlArmed
      = false)
    ∧ ((terminate (step (mkPool 0 (some 5)) (.exec 7 [] none))).task 0).promise
      = .rejected .poolTerminated
    ∧ getStats (terminate (step (mkPool 0 (some 5)) (.exec 7 [] none)))
      = ⟨0, 0, 0, 0⟩ := by
  have h := C3_terminate_drains 0 (some 5)
    (step (mkPool 0 (some 5)) (.exec 7 [] none))
    (Reachable.init.step (.exec 7 [] none))
  exact ⟨h.1 0, h.2.1 0 (by decide) (by decide), h.2.2.1⟩

/-- A task that is in the queue buffer with a pending promise. -/
def TaskQueuedP (s : PoolState) (t : Nat) : Prop :=
  t ∈ s.taskQueue.toList ∧ (s.task t).promise = .pending

/-- A task that has been posted to a worker and is still pending. -/
def TaskDispatchedP (s : PoolState) (t : Nat) : Prop :=
  (s.task t).dispatchedEver = true ∧ (s.task t).promise = .pending

/-- A task whose promise is settled. -/
def TaskSettledP (s : PoolState) (t : Nat) : Prop :=
  (s.task t).promise ≠ .pending

instance (s : PoolState) (t : Nat) : Decidable (TaskQueuedP s t) := by
  unfold TaskQueuedP
  infer_instance

instance (s : PoolState) (t : Nat) : Decidable (TaskDispatchedP s t) := by
  unfold TaskDispatchedP
  infer_instance

instance (s : PoolState) (t : Nat) : Decidable (TaskSettledP s t) := by
  unfold TaskSettledP
  infer_instance

/-- C4: in every reachable state every admitted task is in exactly one of
the states queued / dispatched / settled; a settled promise never changes
again (settled exactly once — resolve and reject are no-ops on a settled
promise); a settled task is never subsequently dispatched to any worker;
and a task rejected by TTL expiry while queued keeps its TTL rejection
even through terminate(), whose dequeue-and-reject pass cannot settle it a
second time. -/
theorem C4_task_lifecycle :
    ∀ (size : Nat) (dttl : Option Nat) (s : PoolState), Reachable size dttl s →
      (∀ t, t < s.tasks.length →
        (TaskQueuedP s t ∧ ¬ TaskDispatchedP s t ∧ ¬ TaskSettledP s t)
        ∨ (¬ TaskQueuedP s t ∧ TaskDispatchedP s t ∧ ¬ TaskSettledP s t)
        ∨ (¬ TaskQueuedP s t ∧ ¬ TaskDispatchedP s t ∧ TaskSettledP s t))
      ∧ (∀ t e, TaskSettledP s t →
          ((step s e).task t).promise = (s.task t).promise)
      ∧ (∀ t, TaskSettledP s t → ∀ s2, ReachFrom s s2 → ∀ w,
          mapLookup s2.workerTasks w ≠ some t)
      ∧ (∀ t, (s.task t).cancelled = true →
          ((terminate s).task t).promise = .rejected .ttlExpired) := by
  intro size dttl s hr
  have hI := reachable_inv hr
  refine ⟨?_, ?_, ?_, ?_⟩
  · intro t hlt
    by_cases hset : (s.task t).promise = .pending
    · by_cases hf : (s.task t).dispatchedEver = true
      · refine Or.inr (Or.inl ⟨?_, ⟨hf, hset⟩, ?_⟩)
        · intro hqd
          have := hI.queueFresh t hqd.1
          rw [hf] at this
          exact absurd this (by simp)
        · intro hne
          exact hne hset
      · have hf2 : (s.task t).dispatchedEver = false := by simpa using hf
        refine Or.inl ⟨⟨hI.pendingFreshQueued t hlt hset hf2, hset⟩, ?_, ?_⟩
        · intro hd
          have hd2 : (s.task t).dispatchedEver = true
              ∧ (s.task t).promise = .pending := hd
          rw [hf2] at hd2
          exact absurd hd2.1 (by simp)
        · intro hne
          exact hne hset
    · refine Or.inr (Or.inr ⟨?_, ?_, hset⟩)
      · intro hqd
        exact hset hqd.2
      · intro hd
        exact hset hd.2
  · intro t e hset
    exact step_settled_persist hI e t hset
  · intro t hset s2 h2 w
    exact settled_never_bound hI h2 t hset w
  · intro t hc
    have h4 := (hI.cancelledRejected t hc).1
    have h5 := step_settled_persist hI .halt t (by rw [h4]; simp)
    show ((terminate s).task t).promise = .rejected .ttlExpired
    rw [show ((step s .halt).task t).promise
      = ((terminate s).task t).promise from rfl] at h5
    rw [h5, h4]

theorem C4_task_lifecycle_witness :
    ((TaskQueuedP (step (mkPool 0 (some 5)) (.exec 7 [] none)) 0
        ∧ ¬ TaskDispatchedP (step (mkPool 0 (some 5)) (.exec 7 [] none)) 0
        ∧ ¬ TaskSettledP (step (mkPool 0 (some 5)) (.exec 7 [] none)) 0)
      ∨ (¬ TaskQueuedP (step (mkPool 0 (some 5)) (.exec 7 [] none)) 0
        ∧ TaskDispatchedP (step (mkPool 0 (some 5)) (.exec 7 [] none)) 0
        ∧ ¬ TaskSettledP (step (mkPool 0 (some 5)) (.exec 7 [] none)) 0)
      ∨ (¬ TaskQueuedP (step (mkPool 0 (some 5)) (.exec 7 [] none)) 0
        ∧ ¬ TaskDispatchedP (step (mkPool 0 (some 5)) (.exec 7 [] none)) 0
        ∧ TaskSettledP (step (mkPool 0 (some 5)) (.exec 7 [] none)) 0))
    ∧ ((terminate (step (step (mkPool 0 (some 5)) (.exec 7 [] none))
        (.timer 0))).task 0).promise = .rejected .ttlExpired := by
  have h1 := C4_task_lifecycle 0 (some 5)
    (step (mkPool 0 (some 5)) (.exec 7 [] none))
    (Reachable.init.step (.exec 7 [] none))
  have h2 := C4_task_lifecycle 0 (some 5)
    (step (step (mkPool 0 (some 5)) (.exec 7 [] none)) (.timer 0))
    ((Reachable.init.step (.exec 7 [] none)).step (.timer 0))
  exact ⟨h1.1 0 (by decide), h2.2.2.2 0 (by decide)⟩

end Parallel
